import Mathlib

/-!
# Longevity Tech Tree (`src/Tree.js`): layout pass, connector opacity and edit handlers

A shallow embedding of the algorithmic parts of the `Tree` component:

* the layout pass of `treeData.map` (lines 205-291), with its two running
  variables `locRef` and `starterCount` threaded explicitly;
* the `strokeOpacity` computation of a connector (lines 335-338), the anchor
  offsets `lineRef` and `caretRef` and the three lines of a connector (lines 297-429);
* the click handlers that produce the next `treeData`: commit (`fa-check`),
  cancel (`fa-ban`), create (`fa-plus`) and delete (`fa-trash`).

Conventions of the embedding.

* A JavaScript string is a Lean `String`; `.length` counts UTF-16 code units
  (`utf16Length`), `\s` and `trim` use the ECMAScript white space and line
  terminator characters (`isWhiteSpace`), and `toLowerCase` is modelled on the
  ASCII letters only (other characters are left as they are).
* `node.relations` is a `List String`; a missing `relations` field is the empty
  list, since every test in the source is `node.relations && node.relations.length`.
* Pixel coordinates are natural numbers: the layout only ever adds non-negative
  quantities to `0` and to multiples of `pixelDiff`.
* A click handler is a function from the `treeData` it reads to the `treeData`
  it stores.
-/

namespace TechTree

/-! ## Strings -/

/-- Characters matched by the regular expression class `\s`, which are also the
characters removed by `String.prototype.trim`. -/
def isWhiteSpace (c : Char) : Bool :=
  let n := c.toNat
  n == 0x09 || n == 0x0A || n == 0x0B || n == 0x0C || n == 0x0D || n == 0x20 ||
  n == 0xA0 || n == 0x1680 || (0x2000 ≤ n && n ≤ 0x200A) || n == 0x2028 ||
  n == 0x2029 || n == 0x202F || n == 0x205F || n == 0x3000 || n == 0xFEFF

/-- The `.length` of a JavaScript string: the number of UTF-16 code units. -/
def utf16Length (s : String) : Nat :=
  (s.data.map (fun c => if c.toNat < 0x10000 then 1 else 2)).sum

/-- The function `title.replace(/\s/g, '-').toLowerCase()` (lines 210, 238, 257, 502, 544). -/
def derivedId (title : String) : String :=
  ⟨(title.data.map (fun c => if isWhiteSpace c then '-' else c)).map Char.toLower⟩

/-- The function `String.prototype.trim` on a list of characters. -/
def trimChars (cs : List Char) : List Char :=
  ((cs.dropWhile isWhiteSpace).reverse.dropWhile isWhiteSpace).reverse

/-- The function `String.prototype.trim`. -/
def trim (s : String) : String := ⟨trimChars s.data⟩

/-- The function `s.split(',')` on a list of characters: the pieces between the commas. -/
def splitCommaChars : List Char → List (List Char)
  | [] => [[]]
  | c :: cs =>
    if c = ',' then [] :: splitCommaChars cs
    else
      match splitCommaChars cs with
      | [] => [[c]]
      | piece :: pieces => (c :: piece) :: pieces

/-- The function `s.split(',')`. -/
def splitComma (s : String) : List String :=
  (splitCommaChars s.data).map String.mk

/-- The function `s.replace(' ', '-')` on a list of characters: only the first
space is replaced. -/
def replaceFirstSpaceChars : List Char → List Char
  | [] => []
  | c :: cs => if c = ' ' then '-' :: cs else c :: replaceFirstSpaceChars cs

/-- The function `s.replace(' ', '-').toLowerCase()` applied to the select value (line 487). -/
def normalizeType (s : String) : String :=
  ⟨(replaceFirstSpaceChars s.data).map Char.toLower⟩

/-! ## Data model -/

/-- An element of `treeData`. -/
structure Node where
  title : String
  type : String
  relations : List String
  deriving DecidableEq, Repr

/-- An element of `locRef`, and of `startingPoints`. -/
structure Loc where
  id : String
  top : Nat
  left : Nat
  deriving DecidableEq, Repr

/-- The constant `pixelDiff` (line 69). -/
def pixelDiff : Nat := 100

/-- The constant `fontWidth` (line 220). -/
def fontWidth : Nat := 10

/-! ## Layout pass (lines 205-291) -/

/-- The variables that the callback of `locRef.forEach` reads and writes. -/
structure ScanState where
  t : Nat
  l : Nat
  starterCount : Nat
  pushed : Bool
  startingPoints : List Loc
  deriving DecidableEq, Repr

/-- One call of the callback of `locRef.forEach` (lines 234-265) for a node whose
relations are `first :: more`, on the entry `n` of `locRef`. -/
def scanStep (first : String) (more : List String) (s : ScanState) (n : Loc) : ScanState :=
  let s1 : ScanState :=
    if n.id = derivedId first then
      { s with t := n.top, l := n.left + (utf16Length n.id * fontWidth + pixelDiff) }
    else if n.top = s.t then
      if n.left = s.l ∧ s.pushed = false then
        { s with t := s.t + pixelDiff, starterCount := s.starterCount + 1, pushed := true }
      else
        { s with t := s.t + pixelDiff }
    else s
  { s1 with
    startingPoints := s1.startingPoints ++
      ((first :: more).filter (fun relation => n.id = derivedId relation)).map
        (fun _ => ({ id := n.id, top := n.top, left := n.left } : Loc)) }

/-- What one iteration of `treeData.map` computes for a node. -/
structure Placed where
  id : String
  top : Nat
  left : Nat
  startingPoints : List Loc
  deriving DecidableEq, Repr

/-- The record pushed on `locRef` (lines 286-290). -/
def Placed.loc (p : Placed) : Loc := { id := p.id, top := p.top, left := p.left }

/-- One iteration of `treeData.map` (lines 210-291): the placed node and the new
value of `starterCount`. -/
def placeNode (locRef : List Loc) (starterCount : Nat) (node : Node) : Placed × Nat :=
  let multiplier := starterCount + 1
  match node.relations with
  | [] =>
    ({ id := derivedId node.title, top := pixelDiff * multiplier, left := 0,
       startingPoints := [] }, starterCount + 1)
  | first :: more =>
    let s := locRef.foldl (scanStep first more)
      { t := pixelDiff * multiplier, l := pixelDiff * multiplier,
        starterCount := starterCount, pushed := false, startingPoints := [] }
    ({ id := derivedId node.title, top := s.t, left := s.l,
       startingPoints := s.startingPoints }, s.starterCount)

/-- The iterations of `treeData.map` over `nodes`, started with the given
`locRef` and `starterCount`: the placed nodes and the final `starterCount`. -/
def layoutFrom (locRef : List Loc) (starterCount : Nat) : List Node → List Placed × Nat
  | [] => ([], starterCount)
  | node :: rest =>
    let r := placeNode locRef starterCount node
    let rs := layoutFrom (locRef ++ [r.1.loc]) r.2 rest
    (r.1 :: rs.1, rs.2)

/-- One render: `locRef = []` and `starterCount = 0` (lines 59, 64). -/
def layout (nodes : List Node) : List Placed × Nat := layoutFrom [] 0 nodes

/-- The `position` of every node, in sequence order. -/
def positions (nodes : List Node) : List (Nat × Nat) :=
  (layout nodes).1.map (fun p => (p.top, p.left))

/-! ## Connector opacity (lines 335-338) -/

/-- The value of `strokeOpacity` for a connector drawn to a node whose
`position.top` is `positionTop`, from a starting point whose `top` is `pointTop`. -/
def strokeOpacity (positionTop pointTop : Int) : ℚ :=
  let diff : Int := |positionTop| - |pointTop|
  let o : ℚ := 1
  let o : ℚ := if diff > 200 then 3 / 4 else o
  let o : ℚ := if diff > 400 then 1 / 2 else o
  let o : ℚ := if diff > 600 then 1 / 4 else o
  o

/-- The opacity as the specification words it, from the absolute vertical
distance `d`: full weight under 200 units, 0.75 under 400, 0.5 under 600, 0.25 beyond. -/
def opacityByDistance (d : Int) : ℚ :=
  if d < 200 then 1 else if d < 400 then 3 / 4 else if d < 600 then 1 / 2 else 1 / 4

/-! ## Edit handlers -/

/-- The call `d.splice(start, 0, x)`: `x` is inserted before index `start`, at the
end when `start` is beyond the length. -/
def spliceInsert (d : List Node) (start : Nat) (x : Node) : List Node :=
  d.take start ++ x :: d.drop start

/-- The numeric value of `treeLoc`, which starts as `null` (`null + 1` is `1`,
and `splice(null, ...)` starts at `0`). -/
def treeLocValue (treeLoc : Option Nat) : Nat := treeLoc.getD 0

/-- The inner `n.relations.forEach` of the commit handler (lines 460-468) on one
node: every relation equal to the old title is replaced, at its place, by the
value of the title input. -/
def renameRelations (oldTitle inputValue : String) (n : Node) : Node :=
  { n with relations := n.relations.map (fun r => if r = oldTitle then inputValue else r) }

/-- The variable `treeLoc` of the commit handler after `d.forEach` (lines 470-475),
the callbacks being called on `nodes` with indices from `i` on. -/
def commitTreeLoc (title : String) : List Node → Nat → Option Nat → Option Nat
  | [], _, treeLoc => treeLoc
  | n :: rest, i, treeLoc =>
    commitTreeLoc title rest (i + 1) (if n.title = title then some i else treeLoc)

/-- The commit handler (`fa-check`, lines 436-496) of the node `node`:
`inputValue`, `selectValue` and `relationsValue` are the values of the title
input, of the type select and of the relations input. -/
def commit (treeData : List Node) (node : Node)
    (inputValue selectValue relationsValue : String) : List Node :=
  let d := treeData.map (renameRelations node.title inputValue)
  let treeLoc := commitTreeLoc node.title d 0 none
  let d := d.filter (fun n => n.title ≠ node.title)
  let newNode : Node :=
    { title := trim inputValue
      type := normalizeType selectValue
      relations := (splitComma relationsValue).map trim }
  spliceInsert d (treeLocValue treeLoc) newNode

/-- The template literal `Node ${treeLoc + 1}` (lines 528, 540). -/
def defaultTitle (treeLoc : Option Nat) : String :=
  "Node " ++ toString (treeLocValue treeLoc + 1)

/-- The variable `treeLoc` of the create handler after `d.forEach` (lines 525-535),
the callbacks being called on `nodes` with indices from `i` on. -/
def createTreeLoc (title : String) : List Node → Nat → Option Nat → Option Nat
  | [], _, treeLoc => treeLoc
  | n :: rest, i, treeLoc =>
    createTreeLoc title rest (i + 1)
      (if n.title = title then some i
       else if n.title = defaultTitle treeLoc then some (treeLocValue treeLoc + 1)
       else treeLoc)

/-- The node built by the create handler (lines 539-542). -/
def createdNode (treeData : List Node) (node : Node) : Node :=
  { title := defaultTitle (createTreeLoc node.title treeData 0 none)
    type := "core-technology"
    relations := [node.title] }

/-- The create handler (`fa-plus`, lines 513-546) of the node `node`: the new
`treeData` and the new `editingNode`. -/
def create (treeData : List Node) (node : Node) : List Node × String :=
  let treeLoc := createTreeLoc node.title treeData 0 none
  let newNode := createdNode treeData node
  (spliceInsert treeData (treeLocValue treeLoc + 1) newNode, derivedId newNode.title)

/-- The delete handler (`fa-trash`, lines 548-554) of the node `node`. -/
def deleteNode (treeData : List Node) (node : Node) : List Node :=
  treeData.filter (fun n => n.title ≠ node.title)

/-- The three values of the type select (lines 389-391). -/
inductive NodeType where
  | coreTechnology
  | longevityTech
  | generalImprovement
  deriving DecidableEq, Repr

/-- The `value` attribute of the option of a type. -/
def NodeType.value : NodeType → String
  | .coreTechnology => "core-technology"
  | .longevityTech => "longevity-tech"
  | .generalImprovement => "general-improvement"

/-- The cancel handler (`fa-ban`, lines 497-509): the new `treeData`, from the
states `isNewNode` and `editingNode`; `treeData` is left as it is when the node
being edited is not a new one. -/
def cancelCreate (treeData : List Node) (isNewNode : Bool) (editingNode : String) :
    List Node :=
  if isNewNode then treeData.filter (fun n => derivedId n.title ≠ editingNode)
  else treeData

/-- The titles generated by `n` clicks in a row on the create icon of `node`,
each click reading the `treeData` stored by the one before. -/
def createdTitles (node : Node) : Nat → List Node → List String
  | 0, _ => []
  | n + 1, treeData =>
    (createdNode treeData node).title :: createdTitles node n (create treeData node).1

/-- The `treeData` after `n` clicks in a row on the create icon of `node`. -/
def createTimes (node : Node) : Nat → List Node → List Node
  | 0, treeData => treeData
  | n + 1, treeData => createTimes node n (create treeData node).1

/-! ## Connectors and carets (lines 297-429) -/

/-- The constant `caretHeight` (line 297). -/
def caretHeight : ℚ := 12

/-- The constant `nodeHeight` (line 298). -/
def nodeHeight : ℚ := 47

/-- The values taken by `lineRef` in the callbacks of the first
`startingPoints.map` (lines 314-330), called on the remaining points with indices
from `index` on; `count` is `startingPoints.length`. -/
def lineRefsFrom (count : Nat) : Nat → ℚ → List Loc → List ℚ
  | _, _, [] => []
  | index, lineRef, _ :: rest =>
    let lineRef1 := lineRef + caretHeight
    let lineRef2 :=
      if index = 0 then (nodeHeight - caretHeight * (count : ℚ)) / 2 else lineRef1
    lineRef2 :: lineRefsFrom count (index + 1) lineRef2 rest

/-- The value of `lineRef` used for each starting point (`lineRef` starts at 0, line 304). -/
def lineRefs (startingPoints : List Loc) : List ℚ :=
  lineRefsFrom startingPoints.length 0 0 startingPoints

/-- The values taken by `caretRef` in the callbacks of the second
`startingPoints.map` (lines 404-420), called on the remaining points with indices
from `index` on; `count` is `startingPoints.length`. -/
def caretRefsFrom (count : Nat) : Nat → ℚ → List Loc → List ℚ
  | _, _, [] => []
  | index, caretRef, _ :: rest =>
    let caretRef1 := caretRef + caretHeight
    let caretRef2 :=
      if index = 0 then (nodeHeight - caretHeight * (count : ℚ)) / 2 else caretRef1
    caretRef2 :: caretRefsFrom count (index + 1) caretRef2 rest

/-- The `top` of the caret drawn for each starting point (`caretRef` starts at 0, line 303). -/
def caretRefs (startingPoints : List Loc) : List ℚ :=
  caretRefsFrom startingPoints.length 0 0 startingPoints

/-- The attributes of an svg `line` element that the layout decides. -/
structure Line where
  x1 : ℚ
  y1 : ℚ
  x2 : ℚ
  y2 : ℚ
  strokeOpacity : ℚ
  deriving DecidableEq, Repr

/-- The three `line` elements (lines 350, 355, 360) drawn for the starting point
`point` of a node at `position = {top, left}`, with the current value of `lineRef`. -/
def connectorLines (positionTop positionLeft : Nat) (point : Loc) (lineRef : ℚ) :
    List Line :=
  let opacity := strokeOpacity positionTop point.top
  let ranX := lineRef + 35
  let ranY := lineRef
  [{ x1 := point.left, y1 := point.top + ranY,
     x2 := positionLeft - ranX, y2 := point.top + ranY, strokeOpacity := opacity },
   { x1 := positionLeft - ranX, y1 := point.top + ranY,
     x2 := positionLeft - ranX, y2 := positionTop + ranY, strokeOpacity := opacity },
   { x1 := positionLeft - ranX, y1 := positionTop + ranY,
     x2 := positionLeft, y2 := positionTop + ranY, strokeOpacity := opacity }]

/-! ## The relations input and default titles -/

/-- The call `pieces.join(', ')` on lists of characters. -/
def joinCommaSpaceChars : List (List Char) → List Char
  | [] => []
  | [piece] => piece
  | piece :: rest => piece ++ ',' :: ' ' :: joinCommaSpaceChars rest

/-- The variable `relList` (lines 227-232), the default value of the relations input:
the empty string for a node without relations, `node.relations.join(', ')` otherwise. -/
def relList (relations : List String) : String :=
  ⟨joinCommaSpaceChars (relations.map String.data)⟩

/-- A string has no leading or trailing white space: its first and its last
character, when it has any, are not white space. -/
def noOuterWhiteSpace (s : String) : Bool :=
  (s.data.head?.all (fun c => !isWhiteSpace c)) &&
    (s.data.getLast?.all (fun c => !isWhiteSpace c))

/-- The nodes titled "Node (start + 1)", ..., "Node (start + count)", each with
type core-technology and the single relation `relation`. -/
def defaultNodes (relation : String) : Nat → Nat → List Node
  | _, 0 => []
  | start, count + 1 =>
    { title := "Node " ++ toString (start + 1), type := "core-technology",
      relations := [relation] } :: defaultNodes relation (start + 1) count

/-! ## The layout pass: structure of a render -/

theorem placeNode_id (locRef : List Loc) (starterCount : Nat) (node : Node) :
    (placeNode locRef starterCount node).1.id = derivedId node.title := by
  unfold placeNode
  cases node.relations <;> rfl

theorem layoutFrom_length (locRef : List Loc) (starterCount : Nat) (nodes : List Node) :
    (layoutFrom locRef starterCount nodes).1.length = nodes.length := by
  induction nodes generalizing locRef starterCount with
  | nil => rfl
  | cons node rest ih => simp [layoutFrom, ih]

theorem layoutFrom_ids (locRef : List Loc) (starterCount : Nat) (nodes : List Node) :
    (layoutFrom locRef starterCount nodes).1.map Placed.id =
      nodes.map (fun n => derivedId n.title) := by
  induction nodes generalizing locRef starterCount with
  | nil => rfl
  | cons node rest ih => simp [layoutFrom, ih, placeNode_id]

/-- Laying out `pre ++ post` lays out `pre` and then continues on `post` with
the `locRef` and `starterCount` reached after `pre`. -/
theorem layoutFrom_append (locRef : List Loc) (starterCount : Nat) (pre post : List Node) :
    layoutFrom locRef starterCount (pre ++ post) =
      ((layoutFrom locRef starterCount pre).1 ++
        (layoutFrom (locRef ++ (layoutFrom locRef starterCount pre).1.map Placed.loc)
          (layoutFrom locRef starterCount pre).2 post).1,
       (layoutFrom (locRef ++ (layoutFrom locRef starterCount pre).1.map Placed.loc)
          (layoutFrom locRef starterCount pre).2 post).2) := by
  induction pre generalizing locRef starterCount with
  | nil => simp [layoutFrom]
  | cons node rest ih => simp [layoutFrom, ih, List.append_assoc]

theorem layout_append_fst (pre post : List Node) :
    (layout (pre ++ post)).1 =
      (layout pre).1 ++
        (layoutFrom ((layout pre).1.map Placed.loc) (layout pre).2 post).1 := by
  unfold layout
  rw [layoutFrom_append]
  simp

theorem layout_take (nodes : List Node) (j : Nat) :
    (layout (nodes.take j)).1 = (layout nodes).1.take j := by
  by_cases hj : j ≤ nodes.length
  · have hlen : (layout (nodes.take j)).1.length = j := by
      have h := layoutFrom_length [] 0 (nodes.take j)
      rw [List.length_take] at h
      unfold layout
      omega
    have key := layout_append_fst (nodes.take j) (nodes.drop j)
    rw [List.take_append_drop] at key
    rw [key]
    exact (List.take_left' hlen).symm
  · have h1 : nodes.take j = nodes := List.take_of_length_le (by omega)
    have h2 : (layout nodes).1.length ≤ j := by
      have h := layoutFrom_length [] 0 nodes
      unfold layout
      omega
    rw [h1, List.take_of_length_le h2]

/-- The node at index `j` is placed by one iteration that reads, as `locRef`, the
records of the nodes placed before it. -/
theorem layout_getElem? (nodes : List Node) (j : Nat) (node : Node)
    (hnode : nodes[j]? = some node) :
    (layout nodes).1[j]? =
      some (placeNode (((layout nodes).1.take j).map Placed.loc)
        (layout (nodes.take j)).2 node).1 := by
  have hj : j < nodes.length := by
    rcases List.getElem?_eq_some_iff.mp hnode with ⟨h, _⟩
    exact h
  have hget : nodes[j] = node := by
    rcases List.getElem?_eq_some_iff.mp hnode with ⟨_, h⟩
    exact h
  have hsplit : nodes = nodes.take j ++ node :: nodes.drop (j + 1) := by
    rw [← hget, List.getElem_cons_drop _ _ hj, List.take_append_drop]
  rw [← layout_take]
  have hlen : (layout (nodes.take j)).1.length = j := by
    unfold layout
    rw [layoutFrom_length, List.length_take]; omega
  have h2 : (layout nodes).1 =
      (layout (nodes.take j ++ node :: nodes.drop (j + 1))).1 := by rw [← hsplit]
  rw [h2, layout_append_fst]
  simp only [layoutFrom]
  rw [List.getElem?_append_right (by omega)]
  simp [hlen]

/-! ## The scan of `locRef` -/

theorem scanStep_match (first : String) (more : List String) (s : ScanState) (n : Loc)
    (h : n.id = derivedId first) :
    (scanStep first more s n).t = n.top ∧
      (scanStep first more s n).l = n.left + (utf16Length n.id * fontWidth + pixelDiff) := by
  simp [scanStep, h]

theorem scanStep_no_match (first : String) (more : List String) (s : ScanState) (n : Loc)
    (h : n.id ≠ derivedId first) :
    (scanStep first more s n).l = s.l ∧
      (scanStep first more s n).t = (if n.top = s.t then s.t + pixelDiff else s.t) := by
  unfold scanStep
  simp only [h, if_false]
  by_cases ht : n.top = s.t
  · by_cases hl : n.left = s.l ∧ s.pushed = false <;> simp [ht, hl]
  · simp [ht]

/-- Scanning entries none of which is the primary relation leaves `l` as it is
and moves `t` down by whole steps of `pixelDiff`; `t` stays where it was exactly
when no scanned entry is at that `top`. -/
theorem scan_no_match (first : String) (more : List String) (locRef : List Loc)
    (s : ScanState) (h : ∀ n ∈ locRef, n.id ≠ derivedId first) :
    (locRef.foldl (scanStep first more) s).l = s.l ∧
      (∃ c, (locRef.foldl (scanStep first more) s).t = s.t + pixelDiff * c) ∧
      ((locRef.foldl (scanStep first more) s).t = s.t ↔ ∀ n ∈ locRef, n.top ≠ s.t) := by
  induction locRef generalizing s with
  | nil => exact ⟨rfl, ⟨0, by simp⟩, by simp⟩
  | cons n rest ih =>
    have hn : n.id ≠ derivedId first := h n (List.mem_cons_self _ _)
    have hrest : ∀ m ∈ rest, m.id ≠ derivedId first :=
      fun m hm => h m (List.mem_cons_of_mem _ hm)
    obtain ⟨hl, ht⟩ := scanStep_no_match first more s n hn
    obtain ⟨ihl, ⟨c, ihc⟩, iht⟩ := ih (scanStep first more s n) hrest
    simp only [List.foldl_cons]
    refine ⟨by rw [ihl, hl], ?_, ?_⟩
    · by_cases htop : n.top = s.t
      · refine ⟨c + 1, ?_⟩
        rw [ihc, ht, if_pos htop]; ring
      · refine ⟨c, ?_⟩
        rw [ihc, ht, if_neg htop]
    · by_cases htop : n.top = s.t
      · rw [ihc, ht, if_pos htop]
        constructor
        · intro heq
          exfalso
          simp only [pixelDiff] at heq
          omega
        · intro hall
          exact absurd htop (hall n (List.mem_cons_self _ _))
      · rw [ht, if_neg htop] at iht
        rw [iht]
        constructor
        · intro hall m hm
          rcases List.mem_cons.mp hm with rfl | hm
          · exact htop
          · exact hall m hm
        · intro hall m hm
          exact hall m (List.mem_cons_of_mem _ hm)

/-- The outcome of a scan whose last entry with the id of the primary relation is `p`. -/
theorem scan_last_match (first : String) (more : List String) (before after : List Loc)
    (p : Loc) (s : ScanState) (hp : p.id = derivedId first)
    (hafter : ∀ n ∈ after, n.id ≠ derivedId first) :
    ((before ++ p :: after).foldl (scanStep first more) s).l =
        p.left + (utf16Length p.id * fontWidth + pixelDiff) ∧
      (∃ c, ((before ++ p :: after).foldl (scanStep first more) s).t = p.top + pixelDiff * c) ∧
      (((before ++ p :: after).foldl (scanStep first more) s).t = p.top ↔
        ∀ n ∈ after, n.top ≠ p.top) := by
  rw [List.foldl_append, List.foldl_cons]
  obtain ⟨ht, hl⟩ := scanStep_match first more (before.foldl (scanStep first more) s) p hp
  obtain ⟨h1, h2, h3⟩ := scan_no_match first more after
    (scanStep first more (before.foldl (scanStep first more) s) p) hafter
  rw [ht] at h2 h3
  rw [hl] at h1
  exact ⟨h1, h2, h3⟩

/-! ## Alignment to the primary relation -/

theorem mem_drop_take_iff {α : Type} (xs : List α) (i j : Nat) (x : α) :
    x ∈ (xs.take j).drop (i + 1) ↔ ∃ k, i < k ∧ k < j ∧ xs[k]? = some x := by
  rw [List.mem_iff_getElem?]
  constructor
  · rintro ⟨n, hn⟩
    rw [List.getElem?_drop, List.getElem?_take] at hn
    by_cases hlt : i + 1 + n < j
    · rw [if_pos hlt] at hn
      exact ⟨i + 1 + n, by omega, hlt, hn⟩
    · rw [if_neg hlt] at hn
      cases hn
  · rintro ⟨k, hik, hkj, hk⟩
    refine ⟨k - (i + 1), ?_⟩
    rw [List.getElem?_drop, List.getElem?_take]
    have : i + 1 + (k - (i + 1)) = k := by omega
    rw [this, if_pos hkj]
    exact hk

theorem layout_id_of_getElem? (nodes : List Node) (k : Nat) (node : Node) (r : Placed)
    (hnode : nodes[k]? = some node) (hr : (layout nodes).1[k]? = some r) :
    r.id = derivedId node.title := by
  have h := congrArg (fun xs => xs[k]?) (layoutFrom_ids [] 0 nodes)
  simp only [List.getElem?_map] at h
  unfold layout at hr
  rw [hr, hnode] at h
  simpa using h

/-- The placement of a node whose primary relation has the id of an earlier node:
`parent` is the last earlier node with that id. -/
theorem aligned_to_last_match (nodes : List Node) (i j : Nat) (parent node : Node)
    (first : String) (more : List String)
    (hij : i < j) (hparent : nodes[i]? = some parent) (hnode : nodes[j]? = some node)
    (hrel : node.relations = first :: more)
    (hid : derivedId first = derivedId parent.title)
    (hlast : ∀ k m, i < k → k < j → nodes[k]? = some m → derivedId m.title ≠ derivedId first) :
    ∃ p q, (layout nodes).1[i]? = some p ∧ (layout nodes).1[j]? = some q ∧
      p.id = derivedId parent.title ∧
      q.left = p.left + (utf16Length p.id * fontWidth + pixelDiff) ∧
      (∃ c, q.top = p.top + pixelDiff * c) ∧
      (q.top = p.top ↔
        ∀ k r, i < k → k < j → (layout nodes).1[k]? = some r → r.top ≠ p.top) := by
  have hj : j < nodes.length := (List.getElem?_eq_some_iff.mp hnode).1
  have hlen : (layout nodes).1.length = nodes.length := layoutFrom_length [] 0 nodes
  have hi : i < (layout nodes).1.length := by omega
  have hp : (layout nodes).1[i]? = some ((layout nodes).1[i]) := List.getElem?_eq_getElem hi
  have hpid := layout_id_of_getElem? nodes i parent _ hparent hp
  have hq := layout_getElem? nodes j node hnode
  have hitake : i < ((layout nodes).1.take j).length := by
    rw [List.length_take]; omega
  have hsplit : (layout nodes).1.take j =
      ((layout nodes).1.take j).take i ++
        (layout nodes).1[i] :: ((layout nodes).1.take j).drop (i + 1) := by
    have h1 : ((layout nodes).1.take j)[i] = (layout nodes).1[i] := by
      rw [List.getElem_take]
    rw [← h1, List.getElem_cons_drop _ _ hitake, List.take_append_drop]
  have hafter : ∀ n ∈ (((layout nodes).1.take j).drop (i + 1)).map Placed.loc,
      n.id ≠ derivedId first := by
    intro n hn
    obtain ⟨r, hr, rfl⟩ := List.mem_map.mp hn
    obtain ⟨k, hik, hkj, hk⟩ := (mem_drop_take_iff _ i j r).mp hr
    have hklt : k < nodes.length := by omega
    have hm : nodes[k]? = some (nodes[k]) := List.getElem?_eq_getElem hklt
    have := layout_id_of_getElem? nodes k _ r hm hk
    show r.id ≠ derivedId first
    rw [this]
    exact hlast k _ hik hkj hm
  have hscan := fun s => scan_last_match first more
    ((((layout nodes).1.take j).take i).map Placed.loc)
    ((((layout nodes).1.take j).drop (i + 1)).map Placed.loc)
    ((layout nodes).1[i]).loc s
    (by show ((layout nodes).1[i]).id = derivedId first; rw [hpid, hid]) hafter
  refine ⟨(layout nodes).1[i], _, hp, hq, hpid, ?_⟩
  rw [hsplit]
  simp only [placeNode, hrel, List.map_append, List.map_cons]
  obtain ⟨h1, h2, h3⟩ := hscan
    { t := pixelDiff * ((layout (nodes.take j)).2 + 1),
      l := pixelDiff * ((layout (nodes.take j)).2 + 1),
      starterCount := (layout (nodes.take j)).2, pushed := false, startingPoints := [] }
  refine ⟨h1, h2, h3.trans ?_⟩
  constructor
  · intro hall k r hik hkj hk
    exact hall r.loc (List.mem_map.mpr ⟨r, (mem_drop_take_iff _ i j r).mpr ⟨k, hik, hkj, hk⟩, rfl⟩)
  · intro hall n hn
    obtain ⟨r, hr, rfl⟩ := List.mem_map.mp hn
    obtain ⟨k, hik, hkj, hk⟩ := (mem_drop_take_iff _ i j r).mp hr
    exact hall k r hik hkj hk

/-! ## Claims about the layout pass -/

/-- C6. Worked example: for `[A [], B ["A"], C ["A"]]` the pass puts A at
(top 100, left 0), B at (100, 110) and C at (200, 110); `starterCount` is 1 after A,
still 1 after B and 2 after C (one increment, by the collision of C with B); B and C
each get the single connector source `("a", 100, 0)`. -/
theorem worked_example_layout :
    layout [⟨"A", "core-technology", []⟩, ⟨"B", "core-technology", ["A"]⟩,
        ⟨"C", "core-technology", ["A"]⟩] =
      ([⟨"a", 100, 0, []⟩, ⟨"b", 100, 110, [⟨"a", 100, 0⟩]⟩,
        ⟨"c", 200, 110, [⟨"a", 100, 0⟩]⟩], 2) ∧
    (layout [⟨"A", "core-technology", []⟩]).2 = 1 ∧
    (layout [⟨"A", "core-technology", []⟩, ⟨"B", "core-technology", ["A"]⟩]).2 = 1 := by
  decide

/-- C5. Right-of-parent placement: in a sequence whose derived ids are pairwise
distinct, a node at index `j` whose first relation has the derived id of the node
at an earlier index `i` is placed at `left = p.left + 10 * length(p.id) + 100` and at
`top = p.top + 100 * c` for some natural `c`, where `p` is the placement of that
earlier node. -/
theorem right_of_parent_placement (nodes : List Node) (i j : Nat) (parent node : Node)
    (first : String) (more : List String)
    (hnodup : (nodes.map (fun n => derivedId n.title)).Nodup)
    (hij : i < j) (hparent : nodes[i]? = some parent) (hnode : nodes[j]? = some node)
    (hrel : node.relations = first :: more)
    (hid : derivedId first = derivedId parent.title) :
    ∃ p q, (layout nodes).1[i]? = some p ∧ (layout nodes).1[j]? = some q ∧
      p.id = derivedId parent.title ∧
      q.left = p.left + 10 * utf16Length p.id + 100 ∧
      ∃ c, q.top = p.top + 100 * c := by
  have hlast : ∀ k m, i < k → k < j → nodes[k]? = some m →
      derivedId m.title ≠ derivedId first := by
    intro k m hik _ hm heq
    have h1 : (nodes.map (fun n => derivedId n.title))[k]? = some (derivedId first) := by
      rw [List.getElem?_map, hm]; simp [heq]
    have h2 : (nodes.map (fun n => derivedId n.title))[i]? = some (derivedId first) := by
      rw [List.getElem?_map, hparent]; simp [hid]
    obtain ⟨hk, hk'⟩ := List.getElem?_eq_some_iff.mp h1
    obtain ⟨hi, hi'⟩ := List.getElem?_eq_some_iff.mp h2
    have := (List.Nodup.getElem_inj_iff hnodup).mp (hk'.trans hi'.symm)
    omega
  obtain ⟨p, q, hp, hq, hpid, hleft, ⟨c, hc⟩, _⟩ :=
    aligned_to_last_match nodes i j parent node first more hij hparent hnode hrel hid hlast
  refine ⟨p, q, hp, hq, hpid, ?_, c, ?_⟩
  · rw [hleft]; simp only [fontWidth, pixelDiff]; ring
  · rw [hc]; rfl

/-- Witness of C5 on the worked example: C (index 2) is placed from A (index 0). -/
theorem right_of_parent_placement_witness :
    ∃ p q, (layout [⟨"A", "core-technology", []⟩, ⟨"B", "core-technology", ["A"]⟩,
        ⟨"C", "core-technology", ["A"]⟩]).1[0]? = some p ∧
      (layout [⟨"A", "core-technology", []⟩, ⟨"B", "core-technology", ["A"]⟩,
        ⟨"C", "core-technology", ["A"]⟩]).1[2]? = some q ∧
      p.id = derivedId "A" ∧
      q.left = p.left + 10 * utf16Length p.id + 100 ∧
      ∃ c, q.top = p.top + 100 * c :=
  right_of_parent_placement
    [⟨"A", "core-technology", []⟩, ⟨"B", "core-technology", ["A"]⟩,
      ⟨"C", "core-technology", ["A"]⟩] 0 2
    ⟨"A", "core-technology", []⟩ ⟨"C", "core-technology", ["A"]⟩ "A" []
    (by decide) (by decide) (by decide) (by decide) rfl (by decide)

/-- C4, as stated, fails on the worked example: the first relation of C (index 2)
is "A", whose derived id "a" is the id of the node at index 0, yet C is placed at
top 200 while A is at top 100. -/
theorem alignment_top_counterexample :
    (layout [⟨"A", "core-technology", []⟩, ⟨"B", "core-technology", ["A"]⟩,
        ⟨"C", "core-technology", ["A"]⟩]).1.map (fun p => (p.id, p.top)) =
      [("a", 100), ("b", 100), ("c", 200)] ∧
    derivedId "A" = "a" ∧ (200 : Nat) ≠ 100 := by
  decide

/-- C4, amended. A node at index `j` whose first relation has the derived id of an
earlier node, the last such node being at index `i` with placement `p`, gets a top
that is `p.top` plus a natural multiple of 100, hence never above `p`; its top equals
`p.top` exactly when no node placed between the two is at `p.top`. -/
theorem alignment_top_amended (nodes : List Node) (i j : Nat) (parent node : Node)
    (first : String) (more : List String)
    (hij : i < j) (hparent : nodes[i]? = some parent) (hnode : nodes[j]? = some node)
    (hrel : node.relations = first :: more)
    (hid : derivedId first = derivedId parent.title)
    (hlast : ∀ k m, i < k → k < j → nodes[k]? = some m →
      derivedId m.title ≠ derivedId first) :
    ∃ p q, (layout nodes).1[i]? = some p ∧ (layout nodes).1[j]? = some q ∧
      p.top ≤ q.top ∧ (∃ c, q.top = p.top + 100 * c) ∧
      (q.top = p.top ↔
        ∀ k r, i < k → k < j → (layout nodes).1[k]? = some r → r.top ≠ p.top) := by
  obtain ⟨p, q, hp, hq, _, _, ⟨c, hc⟩, hiff⟩ :=
    aligned_to_last_match nodes i j parent node first more hij hparent hnode hrel hid hlast
  exact ⟨p, q, hp, hq, by rw [hc]; exact Nat.le_add_right _ _, ⟨c, hc⟩, hiff⟩

/-- Witness of the amended C4: in `[A [], B ["A"]]` nothing stands between A and B,
and B is aligned to A. -/
theorem alignment_top_amended_witness :
    ∃ p q, (layout [⟨"A", "core-technology", []⟩, ⟨"B", "core-technology", ["A"]⟩]).1[0]? =
        some p ∧
      (layout [⟨"A", "core-technology", []⟩, ⟨"B", "core-technology", ["A"]⟩]).1[1]? =
        some q ∧
      p.top ≤ q.top ∧ (∃ c, q.top = p.top + 100 * c) ∧
      (q.top = p.top ↔
        ∀ k r, 0 < k → k < 1 →
          (layout [⟨"A", "core-technology", []⟩, ⟨"B", "core-technology", ["A"]⟩]).1[k]? =
            some r → r.top ≠ p.top) :=
  alignment_top_amended
    [⟨"A", "core-technology", []⟩, ⟨"B", "core-technology", ["A"]⟩] 0 1
    ⟨"A", "core-technology", []⟩ ⟨"B", "core-technology", ["A"]⟩ "A" []
    (by decide) (by decide) (by decide) rfl (by decide)
    (fun k _ h0 h1 => absurd h1 (by omega))

/-- C1 at its failing input. The derived ids of `[A [], B [], C ["B"], D ["A"], E ["A"]]`
are pairwise distinct, and the pass places both C (index 2) and E (index 4) at
(top 200, left 110): E is aligned to A, the scan passes C while `t` is still 100, and
the later entry D pushes `t` to 200, where C already is. -/
theorem overlapping_positions :
    (([⟨"A", "core-technology", []⟩, ⟨"B", "core-technology", []⟩,
        ⟨"C", "core-technology", ["B"]⟩, ⟨"D", "core-technology", ["A"]⟩,
        ⟨"E", "core-technology", ["A"]⟩] : List Node).map
      (fun n => derivedId n.title)).Nodup ∧
    positions [⟨"A", "core-technology", []⟩, ⟨"B", "core-technology", []⟩,
        ⟨"C", "core-technology", ["B"]⟩, ⟨"D", "core-technology", ["A"]⟩,
        ⟨"E", "core-technology", ["A"]⟩] =
      [(100, 0), (200, 0), (200, 110), (100, 110), (200, 110)] := by
  decide

/-! ## Claims about the connector opacity -/

/-- C7, as stated, fails at two inputs. At distance exactly 200 (target top 300,
source top 100) the code keeps opacity 1 where the stated breakpoints give 0.75; and
for a source 800 below its target (target top 100, source top 900) the code keeps
opacity 1 where the stated rule gives 0.25. -/
theorem opacity_counterexample :
    strokeOpacity 300 100 = 1 ∧ opacityByDistance |(300 : Int) - 100| = 3 / 4 ∧
    strokeOpacity 100 900 = 1 ∧ opacityByDistance |(100 : Int) - 900| = 1 / 4 := by
  refine ⟨?_, ?_, ?_, ?_⟩ <;> norm_num [strokeOpacity, opacityByDistance, abs_of_nonneg, abs_of_neg]

/-- C7, amended. For a source that is not below its target (`0 ≤ pointTop ≤ positionTop`)
the opacity is a function of the distance `d = positionTop - pointTop` only: 1 when
`d ≤ 200`, 0.75 when `200 < d ≤ 400`, 0.5 when `400 < d ≤ 600`, 0.25 beyond; hence it is
non-increasing as `d` grows. -/
theorem opacity_amended (positionTop pointTop positionTop' pointTop' : Int)
    (h0 : 0 ≤ pointTop) (h1 : pointTop ≤ positionTop)
    (h0' : 0 ≤ pointTop') (h1' : pointTop' ≤ positionTop') :
    strokeOpacity positionTop pointTop =
        (if positionTop - pointTop ≤ 200 then 1
         else if positionTop - pointTop ≤ 400 then 3 / 4
         else if positionTop - pointTop ≤ 600 then 1 / 2 else 1 / 4) ∧
      (positionTop - pointTop ≤ positionTop' - pointTop' →
        strokeOpacity positionTop' pointTop' ≤ strokeOpacity positionTop pointTop) := by
  have ha : |positionTop| = positionTop := abs_of_nonneg (le_trans h0 h1)
  have hb : |pointTop| = pointTop := abs_of_nonneg h0
  have ha' : |positionTop'| = positionTop' := abs_of_nonneg (le_trans h0' h1')
  have hb' : |pointTop'| = pointTop' := abs_of_nonneg h0'
  simp only [strokeOpacity, ha, hb, ha', hb']
  constructor
  · split_ifs <;> first | rfl | omega
  · intro hle
    split_ifs <;> first | omega | norm_num

/-- Witness of the amended C7: targets at tops 300 and 500 with the source at top 100. -/
theorem opacity_amended_witness :
    strokeOpacity 300 100 =
        (if (300 : Int) - 100 ≤ 200 then 1
         else if (300 : Int) - 100 ≤ 400 then 3 / 4
         else if (300 : Int) - 100 ≤ 600 then 1 / 2 else 1 / 4) ∧
      ((300 : Int) - 100 ≤ 500 - 100 → strokeOpacity 500 100 ≤ strokeOpacity 300 100) :=
  opacity_amended 300 100 500 100 (by decide) (by decide) (by decide) (by decide)

/-! ## The edit handlers: removing and reinserting by title -/

/-- With pairwise distinct titles, filtering out the title of the node at index `i`
removes exactly that index. -/
theorem filter_title_eq_eraseIdx (nodes : List Node) (i : Nat) (x : Node)
    (hnodup : (nodes.map Node.title).Nodup) (hx : nodes[i]? = some x) :
    nodes.filter (fun n => n.title ≠ x.title) = nodes.eraseIdx i := by
  induction nodes generalizing i with
  | nil => simp at hx
  | cons a rest ih =>
    rw [List.map_cons, List.nodup_cons] at hnodup
    obtain ⟨ha, hrest⟩ := hnodup
    cases i with
    | zero =>
      have hax : a = x := by simpa using hx
      subst hax
      rw [List.eraseIdx_cons_zero, List.filter_cons_of_neg (by simp)]
      apply List.filter_eq_self.mpr
      intro n hn
      have : n.title ≠ a.title := fun h => ha (h ▸ List.mem_map_of_mem Node.title hn)
      simpa using this
    | succ k =>
      have hxr : rest[k]? = some x := by simpa using hx
      have hmem : x ∈ rest := List.getElem?_mem hxr
      have hne : a.title ≠ x.title := fun h => ha (h ▸ List.mem_map_of_mem Node.title hmem)
      rw [List.eraseIdx_cons_succ, List.filter_cons_of_pos (by simpa using hne), ih k hrest hxr]

theorem spliceInsert_eraseIdx (nodes : List Node) (i : Nat) (x : Node) (hi : i < nodes.length) :
    spliceInsert (nodes.eraseIdx i) i x = nodes.set i x := by
  unfold spliceInsert
  induction nodes generalizing i with
  | nil => simp at hi
  | cons a rest ih =>
    cases i with
    | zero => simp
    | succ k =>
      have hk : k < rest.length := by simpa using hi
      simp only [List.eraseIdx_cons_succ, List.take_succ_cons, List.drop_succ_cons,
        List.set_cons_succ, List.cons_append]
      rw [ih k hk]

theorem commitTreeLoc_append (title : String) (pre post : List Node) (i : Nat)
    (treeLoc : Option Nat) :
    commitTreeLoc title (pre ++ post) i treeLoc =
      commitTreeLoc title post (i + pre.length) (commitTreeLoc title pre i treeLoc) := by
  induction pre generalizing i treeLoc with
  | nil => rfl
  | cons a rest ih =>
    have hidx : i + 1 + rest.length = i + (rest.length + 1) := by omega
    show commitTreeLoc title (rest ++ post) (i + 1) _ =
      commitTreeLoc title post (i + (rest.length + 1)) (commitTreeLoc title rest (i + 1) _)
    rw [ih, hidx]

theorem commitTreeLoc_absent (title : String) (nodes : List Node) (i : Nat)
    (treeLoc : Option Nat) (h : ∀ n ∈ nodes, n.title ≠ title) :
    commitTreeLoc title nodes i treeLoc = treeLoc := by
  induction nodes generalizing i treeLoc with
  | nil => rfl
  | cons a rest ih =>
    have ha : a.title ≠ title := h a (List.mem_cons_self _ _)
    simp only [commitTreeLoc, if_neg ha]
    exact ih _ _ (fun n hn => h n (List.mem_cons_of_mem _ hn))

/-- With pairwise distinct titles, the commit handler finds the index of its node. -/
theorem commitTreeLoc_of_nodup (nodes : List Node) (i : Nat) (x : Node)
    (hnodup : (nodes.map Node.title).Nodup) (hx : nodes[i]? = some x) :
    commitTreeLoc x.title nodes 0 none = some i := by
  obtain ⟨hi, hget⟩ := List.getElem?_eq_some_iff.mp hx
  have hsplit : nodes = nodes.take i ++ x :: nodes.drop (i + 1) := by
    rw [← hget, List.getElem_cons_drop _ _ hi, List.take_append_drop]
  have hafter : ∀ n ∈ nodes.drop (i + 1), n.title ≠ x.title := by
    intro n hn heq
    rw [hsplit, List.map_append, List.map_cons] at hnodup
    have h2 := (List.nodup_append.mp hnodup).2.1
    rw [List.nodup_cons] at h2
    exact h2.1 (heq ▸ List.mem_map_of_mem Node.title hn)
  rw [hsplit, commitTreeLoc_append]
  simp only [commitTreeLoc, if_true]
  rw [commitTreeLoc_absent _ _ _ _ hafter, List.length_take]
  congr 1
  omega

theorem renameRelations_title (oldTitle inputValue : String) (n : Node) :
    (renameRelations oldTitle inputValue n).title = n.title := rfl

theorem normalizeType_value (ty : NodeType) : normalizeType ty.value = ty.value := by
  cases ty <;> decide

/-- With pairwise distinct titles, the commit handler replaces the element at the
index of its node and rewrites the relations of the others. -/
theorem commit_eq_set (nodes : List Node) (i : Nat) (x : Node)
    (inputValue selectValue relationsValue : String)
    (hnodup : (nodes.map Node.title).Nodup) (hx : nodes[i]? = some x) :
    commit nodes x inputValue selectValue relationsValue =
      (nodes.map (renameRelations x.title inputValue)).set i
        { title := trim inputValue
          type := normalizeType selectValue
          relations := (splitComma relationsValue).map trim } := by
  have hi : i < nodes.length := (List.getElem?_eq_some_iff.mp hx).1
  have htitles : ((nodes.map (renameRelations x.title inputValue)).map Node.title).Nodup := by
    rw [List.map_map]
    exact hnodup
  have hx2 : (nodes.map (renameRelations x.title inputValue))[i]? =
      some (renameRelations x.title inputValue x) := by
    rw [List.getElem?_map, hx]; rfl
  have hloc := commitTreeLoc_of_nodup _ i _ htitles hx2
  have hfilter := filter_title_eq_eraseIdx _ i _ htitles hx2
  rw [renameRelations_title] at hloc hfilter
  unfold commit
  simp only [hloc, hfilter, treeLocValue, Option.getD_some]
  exact spliceInsert_eraseIdx _ i _ (by rw [List.length_map]; exact hi)

/-! ## Claims about commit and delete -/

/-- C2 at its failing input. Committing node A of `[A [], B ["A"]]` with the text
"A2 " typed in the title field makes a node titled "A2" (the title is trimmed) but
rewrites the relation of B to the untrimmed "A2 ": B does not contain the new title. -/
theorem rename_cascade_untrimmed :
    commit [⟨"A", "core-technology", []⟩, ⟨"B", "core-technology", ["A"]⟩]
        ⟨"A", "core-technology", []⟩ "A2 " "core-technology" "" =
      [⟨"A2", "core-technology", [""]⟩, ⟨"B", "core-technology", ["A2 "]⟩] ∧
    "A2" ∉ ["A2 "] := by
  decide

/-- C8. Delete: in a sequence with pairwise distinct titles, the delete handler of the
node at index `i` returns the sequence with exactly that index removed, the other
nodes unchanged and in the same order; every other node, relations included, is
still a member of the result. -/
theorem delete_removes_only_the_node (nodes : List Node) (i : Nat) (x : Node)
    (hnodup : (nodes.map Node.title).Nodup) (hx : nodes[i]? = some x) :
    deleteNode nodes x = nodes.eraseIdx i ∧
      ∀ k y, k ≠ i → nodes[k]? = some y → y ∈ deleteNode nodes x := by
  refine ⟨filter_title_eq_eraseIdx nodes i x hnodup hx, ?_⟩
  intro k y hki hy
  unfold deleteNode
  rw [List.mem_filter]
  refine ⟨List.getElem?_mem hy, ?_⟩
  have hne : y.title ≠ x.title := by
    intro heq
    have h1 : (nodes.map Node.title)[k]? = some x.title := by
      rw [List.getElem?_map, hy]; simp [heq]
    have h2 : (nodes.map Node.title)[i]? = some x.title := by
      rw [List.getElem?_map, hx]; rfl
    obtain ⟨hk, hk'⟩ := List.getElem?_eq_some_iff.mp h1
    obtain ⟨hi, hi'⟩ := List.getElem?_eq_some_iff.mp h2
    exact hki ((List.Nodup.getElem_inj_iff hnodup).mp (hk'.trans hi'.symm))
  simpa using hne

/-- Witness of C8: deleting A from `[A [], B ["A"], C ["A"]]`. -/
theorem delete_removes_only_the_node_witness :
    deleteNode [⟨"A", "core-technology", []⟩, ⟨"B", "core-technology", ["A"]⟩,
        ⟨"C", "core-technology", ["A"]⟩] ⟨"A", "core-technology", []⟩ =
      List.eraseIdx [⟨"A", "core-technology", []⟩, ⟨"B", "core-technology", ["A"]⟩,
        ⟨"C", "core-technology", ["A"]⟩] 0 ∧
      ∀ k y, k ≠ 0 →
        ([⟨"A", "core-technology", []⟩, ⟨"B", "core-technology", ["A"]⟩,
          ⟨"C", "core-technology", ["A"]⟩] : List Node)[k]? = some y →
        y ∈ deleteNode [⟨"A", "core-technology", []⟩, ⟨"B", "core-technology", ["A"]⟩,
          ⟨"C", "core-technology", ["A"]⟩] ⟨"A", "core-technology", []⟩ :=
  delete_removes_only_the_node
    [⟨"A", "core-technology", []⟩, ⟨"B", "core-technology", ["A"]⟩,
      ⟨"C", "core-technology", ["A"]⟩] 0 ⟨"A", "core-technology", []⟩
    (by decide) (by decide)

/-- C9. Commit keeps the place: in a sequence with pairwise distinct titles, the commit
handler of the node at index `i` returns a sequence of the same length, whose element
at index `i` is the new node (trimmed title, the selected type, the split and trimmed
relations) and whose element at any other index `k` is the node of the input at `k`
with only its relations rewritten (title and type are kept). -/
theorem commit_keeps_place (nodes : List Node) (i : Nat) (x : Node)
    (newTitle : String) (newType : NodeType) (newRelationsCsv : String)
    (hnodup : (nodes.map Node.title).Nodup) (hx : nodes[i]? = some x) :
    (commit nodes x newTitle newType.value newRelationsCsv).length = nodes.length ∧
      (commit nodes x newTitle newType.value newRelationsCsv)[i]? =
        some { title := trim newTitle, type := newType.value,
               relations := (splitComma newRelationsCsv).map trim } ∧
      (∀ k, k ≠ i →
        (commit nodes x newTitle newType.value newRelationsCsv)[k]? =
          (nodes[k]?).map (renameRelations x.title newTitle)) ∧
      ∀ n, (renameRelations x.title newTitle n).title = n.title ∧
        (renameRelations x.title newTitle n).type = n.type := by
  have hi : i < nodes.length := (List.getElem?_eq_some_iff.mp hx).1
  rw [commit_eq_set nodes i x newTitle newType.value newRelationsCsv hnodup hx,
    normalizeType_value]
  refine ⟨by simp, ?_, ?_, fun n => ⟨rfl, rfl⟩⟩
  · rw [List.getElem?_set_self (by rw [List.length_map]; exact hi)]
  · intro k hk
    rw [List.getElem?_set_ne (Ne.symm hk), List.getElem?_map]

/-- Witness of C9: renaming A to "A2" in `[A [], B ["A"]]`. -/
theorem commit_keeps_place_witness :
    (commit [⟨"A", "core-technology", []⟩, ⟨"B", "core-technology", ["A"]⟩]
        ⟨"A", "core-technology", []⟩ "A2" NodeType.longevityTech.value "B, C").length =
        ([⟨"A", "core-technology", []⟩, ⟨"B", "core-technology", ["A"]⟩] : List Node).length ∧
      (commit [⟨"A", "core-technology", []⟩, ⟨"B", "core-technology", ["A"]⟩]
        ⟨"A", "core-technology", []⟩ "A2" NodeType.longevityTech.value "B, C")[0]? =
        some { title := trim "A2", type := NodeType.longevityTech.value,
               relations := (splitComma "B, C").map trim } ∧
      (∀ k, k ≠ 0 →
        (commit [⟨"A", "core-technology", []⟩, ⟨"B", "core-technology", ["A"]⟩]
          ⟨"A", "core-technology", []⟩ "A2" NodeType.longevityTech.value "B, C")[k]? =
          (([⟨"A", "core-technology", []⟩, ⟨"B", "core-technology", ["A"]⟩] :
            List Node)[k]?).map (renameRelations "A" "A2")) ∧
      ∀ n, (renameRelations "A" "A2" n).title = n.title ∧
        (renameRelations "A" "A2" n).type = n.type :=
  commit_keeps_place
    [⟨"A", "core-technology", []⟩, ⟨"B", "core-technology", ["A"]⟩] 0
    ⟨"A", "core-technology", []⟩ "A2" NodeType.longevityTech "B, C"
    (by decide) (by decide)

/-! ## The create handler -/

theorem createTreeLoc_append (title : String) (pre post : List Node) (i : Nat)
    (treeLoc : Option Nat) :
    createTreeLoc title (pre ++ post) i treeLoc =
      createTreeLoc title post (i + pre.length) (createTreeLoc title pre i treeLoc) := by
  induction pre generalizing i treeLoc with
  | nil => rfl
  | cons a rest ih =>
    have hidx : i + 1 + rest.length = i + (rest.length + 1) := by omega
    show createTreeLoc title (rest ++ post) (i + 1) _ =
      createTreeLoc title post (i + (rest.length + 1)) (createTreeLoc title rest (i + 1) _)
    rw [ih, hidx]

/-- Scanning nodes none of which has the title of the clicked node moves `treeLoc`
up by at most one per node; it stays where it was exactly when none of them has the
default title made from it. -/
theorem createTreeLoc_scan (title : String) (nodes : List Node) (i t : Nat)
    (h : ∀ n ∈ nodes, n.title ≠ title) :
    ∃ u, createTreeLoc title nodes i (some t) = some u ∧ t ≤ u ∧ u ≤ t + nodes.length ∧
      (u = t ↔ ∀ n ∈ nodes, n.title ≠ defaultTitle (some t)) := by
  induction nodes generalizing i t with
  | nil => exact ⟨t, rfl, le_refl _, by simp, by simp⟩
  | cons a rest ih =>
    have ha : a.title ≠ title := h a (List.mem_cons_self _ _)
    have hrest : ∀ n ∈ rest, n.title ≠ title := fun n hn => h n (List.mem_cons_of_mem _ hn)
    by_cases hd : a.title = defaultTitle (some t)
    · obtain ⟨u, hu, h1, h2, _⟩ := ih (i + 1) (t + 1) hrest
      refine ⟨u, ?_, by omega, by simp only [List.length_cons]; omega, ?_⟩
      · simp only [createTreeLoc, if_neg ha, if_pos hd, treeLocValue, Option.getD_some]
        exact hu
      · constructor
        · intro hut; omega
        · intro hall
          exact absurd hd (hall a (List.mem_cons_self _ _))
    · obtain ⟨u, hu, h1, h2, h3⟩ := ih (i + 1) t hrest
      refine ⟨u, ?_, h1, by simp only [List.length_cons]; omega, ?_⟩
      · simp only [createTreeLoc, if_neg ha, if_neg hd]
        exact hu
      · rw [h3]
        constructor
        · intro hall n hn
          rcases List.mem_cons.mp hn with rfl | hn
          · exact hd
          · exact hall n hn
        · intro hall n hn
          exact hall n (List.mem_cons_of_mem _ hn)

theorem createTreeLoc_cons_match (title : String) (a : Node) (rest : List Node) (i : Nat)
    (treeLoc : Option Nat) (ha : a.title = title) :
    createTreeLoc title (a :: rest) i treeLoc = createTreeLoc title rest (i + 1) (some i) := by
  simp only [createTreeLoc, if_pos ha]

/-- The value of `treeLoc` when the title of the clicked node last occurs at index `i`. -/
theorem createTreeLoc_of_last (nodes : List Node) (i : Nat) (x : Node)
    (hx : nodes[i]? = some x)
    (hlast : ∀ k m, i < k → nodes[k]? = some m → m.title ≠ x.title) :
    ∃ u, createTreeLoc x.title nodes 0 none = some u ∧ i ≤ u ∧ u < nodes.length ∧
      (u = i ↔ ∀ k m, i < k → nodes[k]? = some m → m.title ≠ defaultTitle (some i)) := by
  obtain ⟨hi, hget⟩ := List.getElem?_eq_some_iff.mp hx
  have hsplit : nodes = nodes.take i ++ x :: nodes.drop (i + 1) := by
    rw [← hget, List.getElem_cons_drop _ _ hi, List.take_append_drop]
  have hmem : ∀ m, m ∈ nodes.drop (i + 1) ↔ ∃ k, i < k ∧ nodes[k]? = some m := by
    intro m
    rw [List.mem_iff_getElem?]
    constructor
    · rintro ⟨n, hn⟩
      rw [List.getElem?_drop] at hn
      exact ⟨i + 1 + n, by omega, hn⟩
    · rintro ⟨k, hik, hk⟩
      refine ⟨k - (i + 1), ?_⟩
      rw [List.getElem?_drop]
      have : i + 1 + (k - (i + 1)) = k := by omega
      rw [this]
      exact hk
  have hafter : ∀ n ∈ nodes.drop (i + 1), n.title ≠ x.title := by
    intro n hn
    obtain ⟨k, hik, hk⟩ := (hmem n).mp hn
    exact hlast k n hik hk
  obtain ⟨u, hu, h1, h2, h3⟩ := createTreeLoc_scan x.title (nodes.drop (i + 1))
    (0 + (nodes.take i).length + 1) i hafter
  refine ⟨u, ?_, h1, ?_, ?_⟩
  · rw [hsplit, createTreeLoc_append, createTreeLoc_cons_match _ _ _ _ _ rfl]
    have hidx : (0 + (nodes.take i).length) = i := by
      rw [List.length_take]; omega
    rw [hidx] at hu ⊢
    exact hu
  · rw [List.length_drop] at h2
    omega
  · rw [h3]
    constructor
    · intro hall k m hik hk
      exact hall m ((hmem m).mpr ⟨k, hik, hk⟩)
    · intro hall n hn
      obtain ⟨k, hik, hk⟩ := (hmem n).mp hn
      exact hall k n hik hk

/-! ## Claims about create -/

/-- C3 at its failing input. The sequence `[Node 1 ["A"]]` is what create on A
followed by delete of A makes of `[A []]`; the create handler of its only node scans
no other node, keeps `treeLoc = 0` and generates the title "Node 1" again, the title
of the clicked node itself. Likewise on `[Node 2 ["A"], B []]` the create handler of B
generates "Node 2", the title of the node before B. -/
theorem create_duplicate_title :
    deleteNode (create [⟨"A", "core-technology", []⟩] ⟨"A", "core-technology", []⟩).1
        ⟨"A", "core-technology", []⟩ =
      [⟨"Node 1", "core-technology", ["A"]⟩] ∧
    create [⟨"Node 1", "core-technology", ["A"]⟩] ⟨"Node 1", "core-technology", ["A"]⟩ =
      ([⟨"Node 1", "core-technology", ["A"]⟩, ⟨"Node 1", "core-technology", ["Node 1"]⟩],
        "node-1") ∧
    (createdNode [⟨"Node 1", "core-technology", ["A"]⟩]
        ⟨"Node 1", "core-technology", ["A"]⟩).title ∈
      ([⟨"Node 1", "core-technology", ["A"]⟩] : List Node).map Node.title ∧
    (create [⟨"Node 2", "core-technology", ["A"]⟩, ⟨"B", "core-technology", []⟩]
        ⟨"B", "core-technology", []⟩).1.map Node.title = ["Node 2", "B", "Node 2"] := by
  decide

/-- C10, as stated, fails on `[A [], Node 1 ["A"]]`, the result of one create on A:
a second create on A (index 0) skips "Node 1" and inserts "Node 2" at index 2, so the
element at index 1 of the result is not the new node. -/
theorem create_not_immediately_after :
    create [⟨"A", "core-technology", []⟩, ⟨"Node 1", "core-technology", ["A"]⟩]
        ⟨"A", "core-technology", []⟩ =
      ([⟨"A", "core-technology", []⟩, ⟨"Node 1", "core-technology", ["A"]⟩,
        ⟨"Node 2", "core-technology", ["A"]⟩], "node-2") ∧
    createdNode [⟨"A", "core-technology", []⟩, ⟨"Node 1", "core-technology", ["A"]⟩]
        ⟨"A", "core-technology", []⟩ = ⟨"Node 2", "core-technology", ["A"]⟩ ∧
    (create [⟨"A", "core-technology", []⟩, ⟨"Node 1", "core-technology", ["A"]⟩]
        ⟨"A", "core-technology", []⟩).1[0 + 1]? ≠
      some (createdNode [⟨"A", "core-technology", []⟩, ⟨"Node 1", "core-technology", ["A"]⟩]
        ⟨"A", "core-technology", []⟩) := by
  decide

/-- C10, amended. When the title of `afterNode` occurs at index `i` and at no later
index, the node made by the create handler, titled "Node k", is inserted at index `k`
of the sequence, with `i + 1 ≤ k ≤ |S|`: the first `k` nodes stay before it and the
others follow it. It is immediately after `afterNode` (`k = i + 1`) exactly when no
node after index `i` is titled "Node (i + 1)". -/
theorem create_insertion_index (nodes : List Node) (i : Nat) (afterNode : Node)
    (hx : nodes[i]? = some afterNode)
    (hlast : ∀ k m, i < k → nodes[k]? = some m → m.title ≠ afterNode.title) :
    ∃ k, i + 1 ≤ k ∧ k ≤ nodes.length ∧
      (createdNode nodes afterNode).title = "Node " ++ toString k ∧
      (create nodes afterNode).1 =
        nodes.take k ++ createdNode nodes afterNode :: nodes.drop k ∧
      (create nodes afterNode).1[k]? = some (createdNode nodes afterNode) ∧
      (k = i + 1 ↔
        ∀ j m, i < j → nodes[j]? = some m → m.title ≠ "Node " ++ toString (i + 1)) := by
  obtain ⟨u, hu, h1, h2, h3⟩ := createTreeLoc_of_last nodes i afterNode hx hlast
  have hcreate : (create nodes afterNode).1 =
      nodes.take (u + 1) ++ createdNode nodes afterNode :: nodes.drop (u + 1) := by
    simp only [create, spliceInsert, hu, treeLocValue, Option.getD_some]
  refine ⟨u + 1, by omega, by omega, ?_, hcreate, ?_, ?_⟩
  · simp only [createdNode, hu, defaultTitle, treeLocValue, Option.getD_some]
  · rw [hcreate]
    have hlen : (nodes.take (u + 1)).length = u + 1 := by
      rw [List.length_take]; omega
    rw [List.getElem?_append_right (by omega), hlen]
    simp
  · have h4 : u + 1 = i + 1 ↔ u = i := by omega
    rw [h4, h3]
    simp only [defaultTitle, treeLocValue, Option.getD_some]

/-- Witness of the amended C10 on `[A [], Node 1 ["A"]]` with A clicked. -/
theorem create_insertion_index_witness :
    ∃ k, 0 + 1 ≤ k ∧
      k ≤ ([⟨"A", "core-technology", []⟩, ⟨"Node 1", "core-technology", ["A"]⟩] :
        List Node).length ∧
      (createdNode [⟨"A", "core-technology", []⟩, ⟨"Node 1", "core-technology", ["A"]⟩]
        ⟨"A", "core-technology", []⟩).title = "Node " ++ toString k ∧
      (create [⟨"A", "core-technology", []⟩, ⟨"Node 1", "core-technology", ["A"]⟩]
        ⟨"A", "core-technology", []⟩).1 =
        List.take k [⟨"A", "core-technology", []⟩, ⟨"Node 1", "core-technology", ["A"]⟩] ++
          createdNode [⟨"A", "core-technology", []⟩, ⟨"Node 1", "core-technology", ["A"]⟩]
            ⟨"A", "core-technology", []⟩ ::
          List.drop k [⟨"A", "core-technology", []⟩, ⟨"Node 1", "core-technology", ["A"]⟩] ∧
      (create [⟨"A", "core-technology", []⟩, ⟨"Node 1", "core-technology", ["A"]⟩]
        ⟨"A", "core-technology", []⟩).1[k]? =
        some (createdNode [⟨"A", "core-technology", []⟩, ⟨"Node 1", "core-technology", ["A"]⟩]
          ⟨"A", "core-technology", []⟩) ∧
      (k = 0 + 1 ↔
        ∀ j m, 0 < j →
          ([⟨"A", "core-technology", []⟩, ⟨"Node 1", "core-technology", ["A"]⟩] :
            List Node)[j]? = some m → m.title ≠ "Node " ++ toString (0 + 1)) :=
  create_insertion_index
    [⟨"A", "core-technology", []⟩, ⟨"Node 1", "core-technology", ["A"]⟩] 0
    ⟨"A", "core-technology", []⟩ (by decide)
    (fun k m hk hm => by
      have hk2 : k < 2 := (List.getElem?_eq_some_iff.mp hm).1
      have hk1 : k = 1 := by omega
      subst hk1
      have hm2 : m = ⟨"Node 1", "core-technology", ["A"]⟩ := by
        simpa using hm.symm
      subst hm2
      decide)

/-! ## Create: repeated clicks, frame and cancel -/

theorem create_fst_eq (nodes : List Node) (afterNode : Node) :
    (create nodes afterNode).1 =
      nodes.take (treeLocValue (createTreeLoc afterNode.title nodes 0 none) + 1) ++
        createdNode nodes afterNode ::
          nodes.drop (treeLocValue (createTreeLoc afterNode.title nodes 0 none) + 1) := rfl

/-- C11 at its failing input. The titles of `[A, B, Node 1]` are pairwise distinct.
Two clicks in a row on the create icon of A generate "Node 2" twice: each scan skips
"Node 1", which stands after the place where the first "Node 2" was inserted, so the
second scan meets that "Node 2" while the candidate is still "Node 1". -/
theorem repeated_create_duplicate :
    (([⟨"A", "core-technology", []⟩, ⟨"B", "core-technology", []⟩,
        ⟨"Node 1", "core-technology", []⟩] : List Node).map Node.title).Nodup ∧
    createdTitles ⟨"A", "core-technology", []⟩ 2
        [⟨"A", "core-technology", []⟩, ⟨"B", "core-technology", []⟩,
          ⟨"Node 1", "core-technology", []⟩] = ["Node 2", "Node 2"] ∧
    (createTimes ⟨"A", "core-technology", []⟩ 2
        [⟨"A", "core-technology", []⟩, ⟨"B", "core-technology", []⟩,
          ⟨"Node 1", "core-technology", []⟩]).map Node.title =
      ["A", "B", "Node 2", "Node 2", "Node 1"] := by
  decide

/-- C19. Create frame: the create handler returns the sequence with one node inserted
at some index `k ≥ 1`, the nodes of the input before and after it unchanged and in
their order, so the length grows by one; the new node is titled "Node k", has type
core-technology and the title of the clicked node as its only relation; the editing id
is the derived id of the new title. -/
theorem create_frame (nodes : List Node) (afterNode : Node) :
    ∃ k, 1 ≤ k ∧
      (create nodes afterNode).1 =
        nodes.take k ++ createdNode nodes afterNode :: nodes.drop k ∧
      nodes.take k ++ nodes.drop k = nodes ∧
      (create nodes afterNode).1.length = nodes.length + 1 ∧
      (createdNode nodes afterNode).title = "Node " ++ toString k ∧
      (createdNode nodes afterNode).type = "core-technology" ∧
      (createdNode nodes afterNode).relations = [afterNode.title] ∧
      (create nodes afterNode).2 = derivedId (createdNode nodes afterNode).title := by
  refine ⟨treeLocValue (createTreeLoc afterNode.title nodes 0 none) + 1, by omega,
    create_fst_eq nodes afterNode, List.take_append_drop _ _, ?_, rfl, rfl, rfl, rfl⟩
  rw [create_fst_eq, List.length_append, List.length_cons, List.length_take,
    List.length_drop]
  omega

/-- The cancel handler, run on what the create handler stored (`isNewNode` is true
after create, line 515), removes the new node and every node of the input that has
the same derived id. -/
theorem cancelCreate_create (nodes : List Node) (afterNode : Node) :
    cancelCreate (create nodes afterNode).1 true (create nodes afterNode).2 =
      nodes.filter (fun n => derivedId n.title ≠ (create nodes afterNode).2) := by
  have h2 : (create nodes afterNode).2 = derivedId (createdNode nodes afterNode).title := rfl
  simp only [cancelCreate, if_true]
  rw [create_fst_eq, List.filter_append, List.filter_cons_of_neg (by simp [h2]),
    ← List.filter_append, List.take_append_drop]

/-- C14, as stated, fails on `[A [], node-1 []]`: create on A makes "Node 1", whose
derived id "node-1" is also the id of the second node, and the cancel handler removes
both, leaving `[A []]`. -/
theorem create_cancel_counterexample :
    create [⟨"A", "core-technology", []⟩, ⟨"node-1", "core-technology", []⟩]
        ⟨"A", "core-technology", []⟩ =
      ([⟨"A", "core-technology", []⟩, ⟨"Node 1", "core-technology", ["A"]⟩,
        ⟨"node-1", "core-technology", []⟩], "node-1") ∧
    cancelCreate [⟨"A", "core-technology", []⟩, ⟨"Node 1", "core-technology", ["A"]⟩,
        ⟨"node-1", "core-technology", []⟩] true "node-1" =
      [⟨"A", "core-technology", []⟩] ∧
    ([⟨"A", "core-technology", []⟩] : List Node) ≠
      [⟨"A", "core-technology", []⟩, ⟨"node-1", "core-technology", []⟩] := by
  decide

/-- C14, amended. When no node of the sequence has the derived id of the title that
create generates, the cancel handler run with the id reported by create removes the
new node and no other: the result is the sequence before create. In general it is
that sequence without the nodes that have this derived id. -/
theorem create_then_cancel (nodes : List Node) (afterNode : Node)
    (hfresh : ∀ n ∈ nodes, derivedId n.title ≠ (create nodes afterNode).2) :
    cancelCreate (create nodes afterNode).1 true (create nodes afterNode).2 = nodes ∧
      ∀ others : List Node,
        cancelCreate (create others afterNode).1 true (create others afterNode).2 =
          others.filter (fun n => derivedId n.title ≠ (create others afterNode).2) := by
  refine ⟨?_, fun others => cancelCreate_create others afterNode⟩
  rw [cancelCreate_create]
  apply List.filter_eq_self.mpr
  intro n hn
  simpa using hfresh n hn

/-- Witness of the amended C14: create on A in `[A [], B ["A"]]`, then cancel. -/
theorem create_then_cancel_witness :
    cancelCreate
        (create [⟨"A", "core-technology", []⟩, ⟨"B", "core-technology", ["A"]⟩]
          ⟨"A", "core-technology", []⟩).1 true
        (create [⟨"A", "core-technology", []⟩, ⟨"B", "core-technology", ["A"]⟩]
          ⟨"A", "core-technology", []⟩).2 =
      [⟨"A", "core-technology", []⟩, ⟨"B", "core-technology", ["A"]⟩] ∧
      ∀ others : List Node,
        cancelCreate (create others ⟨"A", "core-technology", []⟩).1 true
            (create others ⟨"A", "core-technology", []⟩).2 =
          others.filter
            (fun n => derivedId n.title ≠ (create others ⟨"A", "core-technology", []⟩).2) :=
  create_then_cancel [⟨"A", "core-technology", []⟩, ⟨"B", "core-technology", ["A"]⟩]
    ⟨"A", "core-technology", []⟩ (by decide)

/-! ## Claims about connectors and carets -/

theorem lineRefsFrom_succ (count index : Nat) (lineRef : ℚ) (points : List Loc) (k : Nat)
    (hk : k < points.length) :
    (lineRefsFrom count (index + 1) lineRef points)[k]? =
      some (lineRef + caretHeight * ((k : ℚ) + 1)) := by
  induction points generalizing index lineRef k with
  | nil => simp at hk
  | cons p rest ih =>
    cases k with
    | zero => simp [lineRefsFrom]
    | succ k =>
      have hk2 : k < rest.length := by simpa using hk
      simp only [lineRefsFrom, List.getElem?_cons_succ, if_neg (Nat.succ_ne_zero index)]
      rw [ih (index + 1) (lineRef + caretHeight) k hk2]
      congr 1
      push_cast
      ring

theorem caretRefsFrom_eq_lineRefsFrom (count index : Nat) (ref : ℚ) (points : List Loc) :
    caretRefsFrom count index ref points = lineRefsFrom count index ref points := by
  induction points generalizing index ref with
  | nil => rfl
  | cons p rest ih => simp only [caretRefsFrom, lineRefsFrom, ih]

/-- C16. Anchor offsets: for a node with `m ≥ 1` starting points, the value of
`lineRef` used for the lines of the `k`-th one (`k < m`) is `(47 - 12 * m) / 2 + 12 * k`,
and the `top` of the `k`-th caret is the same number. -/
theorem anchor_offsets (startingPoints : List Loc) (k : Nat)
    (hk : k < startingPoints.length) :
    (lineRefs startingPoints)[k]? =
        some ((47 - 12 * (startingPoints.length : ℚ)) / 2 + 12 * (k : ℚ)) ∧
      (caretRefs startingPoints)[k]? = (lineRefs startingPoints)[k]? := by
  refine ⟨?_, by rw [caretRefs, lineRefs, caretRefsFrom_eq_lineRefsFrom]⟩
  unfold lineRefs
  cases hsp : startingPoints with
  | nil => rw [hsp] at hk; simp at hk
  | cons p rest =>
    cases k with
    | zero => simp [lineRefsFrom, nodeHeight, caretHeight]
    | succ k =>
      have hk2 : k < rest.length := by rw [hsp] at hk; simpa using hk
      simp only [lineRefsFrom, List.getElem?_cons_succ, if_true]
      rw [lineRefsFrom_succ _ _ _ _ _ hk2]
      simp only [nodeHeight, caretHeight]
      congr 1
      push_cast
      ring

/-- Witness of C16: the second of three starting points is anchored at 11/2 + 12. -/
theorem anchor_offsets_witness :
    (lineRefs [⟨"a", 100, 0⟩, ⟨"b", 200, 0⟩, ⟨"c", 300, 0⟩])[1]? =
        some ((47 - 12 *
          (([⟨"a", 100, 0⟩, ⟨"b", 200, 0⟩, ⟨"c", 300, 0⟩] : List Loc).length : ℚ)) / 2 +
            12 * ((1 : Nat) : ℚ)) ∧
      (caretRefs [⟨"a", 100, 0⟩, ⟨"b", 200, 0⟩, ⟨"c", 300, 0⟩])[1]? =
        (lineRefs [⟨"a", 100, 0⟩, ⟨"b", 200, 0⟩, ⟨"c", 300, 0⟩])[1]? :=
  anchor_offsets [⟨"a", 100, 0⟩, ⟨"b", 200, 0⟩, ⟨"c", 300, 0⟩] 1 (by decide)

/-- C17. Elbow path: for a node at `(positionTop, positionLeft)`, a starting point and
the anchor offset `a`, exactly three lines are drawn, in this order: a horizontal one
at `y = point.top + a` from `x = point.left` to `x = positionLeft - (a + 35)`, a vertical
one along that `x` from `y = point.top + a` to `y = positionTop + a`, and a horizontal one
at `y = positionTop + a` ending at `x = positionLeft`. Each line starts where the one
before ends, and the three have the same opacity, that of `strokeOpacity`. -/
theorem elbow_path (positionTop positionLeft : Nat) (point : Loc) (a : ℚ) :
    ∃ s1 s2 s3 : Line, connectorLines positionTop positionLeft point a = [s1, s2, s3] ∧
      (s1.x1 = point.left ∧ s1.y1 = point.top + a ∧
        s1.x2 = positionLeft - (a + 35) ∧ s1.y2 = point.top + a) ∧
      (s2.x1 = positionLeft - (a + 35) ∧ s2.y1 = point.top + a ∧
        s2.x2 = positionLeft - (a + 35) ∧ s2.y2 = positionTop + a) ∧
      (s3.x1 = positionLeft - (a + 35) ∧ s3.y1 = positionTop + a ∧
        s3.x2 = positionLeft ∧ s3.y2 = positionTop + a) ∧
      (s1.x2 = s2.x1 ∧ s1.y2 = s2.y1 ∧ s2.x2 = s3.x1 ∧ s2.y2 = s3.y1) ∧
      s1.strokeOpacity = strokeOpacity positionTop point.top ∧
      s2.strokeOpacity = s1.strokeOpacity ∧ s3.strokeOpacity = s1.strokeOpacity :=
  ⟨_, _, _, rfl, ⟨rfl, rfl, rfl, rfl⟩, ⟨rfl, rfl, rfl, rfl⟩, ⟨rfl, rfl, rfl, rfl⟩,
    ⟨rfl, rfl, rfl, rfl⟩, rfl, rfl, rfl⟩

/-! ## Connector sources and dangling relations -/

theorem scanStep_startingPoints (first : String) (more : List String) (s : ScanState)
    (n : Loc) :
    (scanStep first more s n).startingPoints =
      s.startingPoints ++
        ((first :: more).filter (fun relation => n.id = derivedId relation)).map
          (fun _ => n) := by
  unfold scanStep
  split_ifs <;> rfl

theorem scan_startingPoints (first : String) (more : List String) (locRef : List Loc)
    (s : ScanState) :
    (locRef.foldl (scanStep first more) s).startingPoints =
      s.startingPoints ++
        locRef.flatMap (fun n =>
          ((first :: more).filter (fun relation => n.id = derivedId relation)).map
            (fun _ => n)) := by
  induction locRef generalizing s with
  | nil => simp
  | cons n rest ih =>
    rw [List.foldl_cons, ih, scanStep_startingPoints, List.flatMap_cons, List.append_assoc]

/-- An entry of the `locRef` read by the node at index `j` is the record of a node
at an earlier index, under the derived id of its title. -/
theorem locRef_mem (nodes : List Node) (j : Nat) (n : Loc)
    (hn : n ∈ ((layout nodes).1.take j).map Placed.loc) :
    ∃ k m, k < j ∧ nodes[k]? = some m ∧ n.id = derivedId m.title := by
  obtain ⟨r, hr, rfl⟩ := List.mem_map.mp hn
  obtain ⟨k, hk⟩ := List.mem_iff_getElem?.mp hr
  rw [List.getElem?_take] at hk
  by_cases hkj : k < j
  · rw [if_pos hkj] at hk
    have hlen : (layout nodes).1.length = nodes.length := layoutFrom_length [] 0 nodes
    have hklt : k < nodes.length := by
      have := (List.getElem?_eq_some_iff.mp hk).1
      omega
    have hm : nodes[k]? = some (nodes[k]) := List.getElem?_eq_getElem hklt
    exact ⟨k, nodes[k], hkj, hm, layout_id_of_getElem? nodes k _ r hm hk⟩
  · rw [if_neg hkj] at hk
    cases hk

/-- C15. Connector sources: the starting points of a node with relations are, for
each earlier node `p` in sequence order and, within `p`, for each relation `r` of the
node in relation order whose derived id is `p.id`, the record `{p.id, p.top, p.left}` of
the placement of `p`; all the relations are looked at, not only the first. -/
theorem connector_sources (nodes : List Node) (j : Nat) (node : Node)
    (hnode : nodes[j]? = some node) (hrel : node.relations ≠ []) :
    ∃ q, (layout nodes).1[j]? = some q ∧
      q.startingPoints =
        ((layout nodes).1.take j).flatMap (fun p =>
          (node.relations.filter (fun r => p.id = derivedId r)).map
            (fun _ => ({ id := p.id, top := p.top, left := p.left } : Loc))) := by
  refine ⟨_, layout_getElem? nodes j node hnode, ?_⟩
  cases hrels : node.relations with
  | nil => exact absurd hrels hrel
  | cons first more =>
    simp only [placeNode, hrels]
    rw [scan_startingPoints, List.nil_append, List.flatMap_map]
    rfl

/-- Witness of C15: C in `[A [], B ["A"], C ["B", "A"]]` has two starting points, in the
order of the sequence. -/
theorem connector_sources_witness :
    ∃ q, (layout [⟨"A", "core-technology", []⟩, ⟨"B", "core-technology", ["A"]⟩,
        ⟨"C", "core-technology", ["B", "A"]⟩]).1[2]? = some q ∧
      q.startingPoints =
        ((layout [⟨"A", "core-technology", []⟩, ⟨"B", "core-technology", ["A"]⟩,
          ⟨"C", "core-technology", ["B", "A"]⟩]).1.take 2).flatMap (fun p =>
            ((⟨"C", "core-technology", ["B", "A"]⟩ : Node).relations.filter
              (fun r => p.id = derivedId r)).map
              (fun _ => ({ id := p.id, top := p.top, left := p.left } : Loc))) :=
  connector_sources
    [⟨"A", "core-technology", []⟩, ⟨"B", "core-technology", ["A"]⟩,
      ⟨"C", "core-technology", ["B", "A"]⟩] 2 ⟨"C", "core-technology", ["B", "A"]⟩
    (by decide) (by decide)

/-- C18. Dangling relations: a node with relations none of which has the derived id
of an earlier node is placed all the same; it gets no starting point, its left is the
default `100 * (starterCount + 1)`, with the `starterCount` reached before the node, and
its top is that default plus a natural multiple of 100. -/
theorem dangling_relations_default (nodes : List Node) (j : Nat) (node : Node)
    (hnode : nodes[j]? = some node) (hrel : node.relations ≠ [])
    (hdangling : ∀ r ∈ node.relations, ∀ k m, k < j → nodes[k]? = some m →
      derivedId m.title ≠ derivedId r) :
    (layout nodes).1.length = nodes.length ∧
      ∃ q, (layout nodes).1[j]? = some q ∧ q.startingPoints = [] ∧
        q.left = 100 * ((layout (nodes.take j)).2 + 1) ∧
        ∃ c, q.top = 100 * ((layout (nodes.take j)).2 + 1) + 100 * c := by
  refine ⟨layoutFrom_length [] 0 nodes, _, layout_getElem? nodes j node hnode, ?_⟩
  have hids : ∀ n ∈ ((layout nodes).1.take j).map Placed.loc,
      ∀ r ∈ node.relations, n.id ≠ derivedId r := by
    intro n hn r hr
    obtain ⟨k, m, hkj, hm, hid⟩ := locRef_mem nodes j n hn
    rw [hid]
    exact hdangling r hr k m hkj hm
  cases hrels : node.relations with
  | nil => exact absurd hrels hrel
  | cons first more =>
    rw [hrels] at hids
    obtain ⟨hl, ⟨c, hc⟩, _⟩ := scan_no_match first more
      (((layout nodes).1.take j).map Placed.loc)
      { t := pixelDiff * ((layout (nodes.take j)).2 + 1),
        l := pixelDiff * ((layout (nodes.take j)).2 + 1),
        starterCount := (layout (nodes.take j)).2, pushed := false, startingPoints := [] }
      (fun n hn => hids n hn first (List.mem_cons_self _ _))
    simp only [placeNode, hrels]
    refine ⟨?_, hl, c, hc⟩
    rw [scan_startingPoints, List.nil_append, List.flatMap_eq_nil_iff]
    intro n hn
    rw [List.map_eq_nil_iff, List.filter_eq_nil_iff]
    intro r hr
    simpa using hids n hn r hr

/-- Witness of C18: B in `[A [], B ["Z"]]` names a node that is not there. -/
theorem dangling_relations_default_witness :
    (layout [⟨"A", "core-technology", []⟩, ⟨"B", "core-technology", ["Z"]⟩]).1.length =
        ([⟨"A", "core-technology", []⟩, ⟨"B", "core-technology", ["Z"]⟩] : List Node).length ∧
      ∃ q, (layout [⟨"A", "core-technology", []⟩, ⟨"B", "core-technology", ["Z"]⟩]).1[1]? =
          some q ∧ q.startingPoints = [] ∧
        q.left = 100 * ((layout (List.take 1
          [⟨"A", "core-technology", []⟩, ⟨"B", "core-technology", ["Z"]⟩])).2 + 1) ∧
        ∃ c, q.top = 100 * ((layout (List.take 1
          [⟨"A", "core-technology", []⟩, ⟨"B", "core-technology", ["Z"]⟩])).2 + 1) + 100 * c :=
  dangling_relations_default
    [⟨"A", "core-technology", []⟩, ⟨"B", "core-technology", ["Z"]⟩] 1
    ⟨"B", "core-technology", ["Z"]⟩ (by decide) (by decide)
    (fun r hr k m hk hm => by
      have hr2 : r = "Z" := by simpa using hr
      have hk0 : k = 0 := by omega
      subst hr2 hk0
      have hm2 : m = ⟨"A", "core-technology", []⟩ := by simpa using hm.symm
      subst hm2
      decide)

/-! ## Starters, `starterCount` and lower bounds -/

theorem scanStep_bounds (first : String) (more : List String) (s : ScanState) (n : Loc) :
    s.starterCount ≤ (scanStep first more s n).starterCount ∧
      (100 ≤ s.l → 100 ≤ (scanStep first more s n).l) ∧
      (100 ≤ s.t → 100 ≤ n.top → 100 ≤ (scanStep first more s n).t) := by
  unfold scanStep
  split_ifs <;> simp only [pixelDiff] <;> refine ⟨?_, ?_, ?_⟩ <;> intros <;> omega

theorem scan_bounds (first : String) (more : List String) (locRef : List Loc)
    (s : ScanState) :
    s.starterCount ≤ (locRef.foldl (scanStep first more) s).starterCount ∧
      (100 ≤ s.l → 100 ≤ (locRef.foldl (scanStep first more) s).l) ∧
      (100 ≤ s.t → (∀ n ∈ locRef, 100 ≤ n.top) →
        100 ≤ (locRef.foldl (scanStep first more) s).t) := by
  induction locRef generalizing s with
  | nil => exact ⟨le_refl _, fun h => h, fun h _ => h⟩
  | cons n rest ih =>
    obtain ⟨h1, h2, h3⟩ := scanStep_bounds first more s n
    obtain ⟨i1, i2, i3⟩ := ih (scanStep first more s n)
    rw [List.foldl_cons]
    refine ⟨le_trans h1 i1, fun hl => i2 (h2 hl), fun ht hall => ?_⟩
    exact i3 (h3 ht (hall n (List.mem_cons_self _ _)))
      (fun m hm => hall m (List.mem_cons_of_mem _ hm))

/-- The iteration of a starter: left 0, top from `starterCount`, which grows by one. -/
theorem placeNode_starter (locRef : List Loc) (starterCount : Nat) (node : Node)
    (h : node.relations = []) :
    placeNode locRef starterCount node =
      ({ id := derivedId node.title, top := 100 * (starterCount + 1), left := 0,
         startingPoints := [] }, starterCount + 1) := by
  simp only [placeNode, h, pixelDiff]

/-- The iteration of any node: `starterCount` does not decrease, a node with
relations is at left 100 or more, and the top is 100 or more when the tops read from
`locRef` are. -/
theorem placeNode_bounds (locRef : List Loc) (starterCount : Nat) (node : Node) :
    starterCount ≤ (placeNode locRef starterCount node).2 ∧
      (node.relations ≠ [] → 100 ≤ (placeNode locRef starterCount node).1.left) ∧
      ((∀ n ∈ locRef, 100 ≤ n.top) → 100 ≤ (placeNode locRef starterCount node).1.top) := by
  cases hrels : node.relations with
  | nil =>
    rw [placeNode_starter _ _ _ hrels]
    exact ⟨by omega, fun h => absurd rfl h, fun _ => by show 100 ≤ 100 * (starterCount + 1); omega⟩
  | cons first more =>
    obtain ⟨h1, h2, h3⟩ := scan_bounds first more locRef
      { t := pixelDiff * (starterCount + 1), l := pixelDiff * (starterCount + 1),
        starterCount := starterCount, pushed := false, startingPoints := [] }
    simp only [placeNode, hrels]
    have hdefault : 100 ≤ pixelDiff * (starterCount + 1) := by
      simp only [pixelDiff]; omega
    exact ⟨h1, fun _ => h2 hdefault, fun hall => h3 hdefault hall⟩

theorem layoutFrom_bounds (locRef : List Loc) (starterCount : Nat) (nodes : List Node)
    (hlocRef : ∀ n ∈ locRef, 100 ≤ n.top) :
    starterCount ≤ (layoutFrom locRef starterCount nodes).2 ∧
      ∀ q ∈ (layoutFrom locRef starterCount nodes).1, 100 ≤ q.top := by
  induction nodes generalizing locRef starterCount with
  | nil => exact ⟨le_refl _, fun q hq => by simp [layoutFrom] at hq⟩
  | cons node rest ih =>
    obtain ⟨h1, _, h3⟩ := placeNode_bounds locRef starterCount node
    have hnext : ∀ n ∈ locRef ++ [(placeNode locRef starterCount node).1.loc], 100 ≤ n.top := by
      intro n hn
      rcases List.mem_append.mp hn with hn | hn
      · exact hlocRef n hn
      · have : n = (placeNode locRef starterCount node).1.loc := by simpa using hn
        rw [this]
        exact h3 hlocRef
    obtain ⟨i1, i2⟩ := ih _ (placeNode locRef starterCount node).2 hnext
    simp only [layoutFrom]
    refine ⟨le_trans h1 i1, fun q hq => ?_⟩
    rcases List.mem_cons.mp hq with rfl | hq
    · exact h3 hlocRef
    · exact i2 q hq

/-- The `starterCount` after the node at index `j`. -/
theorem layout_snd_take_succ (nodes : List Node) (j : Nat) (node : Node)
    (hnode : nodes[j]? = some node) :
    (layout (nodes.take (j + 1))).2 =
      (placeNode (((layout nodes).1.take j).map Placed.loc)
        (layout (nodes.take j)).2 node).2 := by
  rw [← layout_take, List.take_succ, hnode]
  unfold layout
  rw [layoutFrom_append]
  simp [layoutFrom]

theorem layout_snd_take_mono (nodes : List Node) (a b : Nat) (hab : a ≤ b) :
    (layout (nodes.take a)).2 ≤ (layout (nodes.take b)).2 := by
  have hsplit : nodes.take b = nodes.take a ++ (nodes.take b).drop a := by
    have h := (List.take_append_drop a (nodes.take b)).symm
    rwa [List.take_take, min_eq_left hab] at h
  rw [hsplit]
  unfold layout
  rw [layoutFrom_append]
  refine (layoutFrom_bounds _ _ _ ?_).1
  intro n hn
  obtain ⟨r, hr, rfl⟩ := List.mem_map.mp (by simpa using hn)
  exact (layoutFrom_bounds [] 0 _ (fun _ h => by simp at h)).2 r hr

/-- The placement of the starter at index `j`, and the `starterCount` after it. -/
theorem starter_getElem? (nodes : List Node) (j : Nat) (node : Node)
    (hnode : nodes[j]? = some node) (hrel : node.relations = []) :
    (layout nodes).1[j]? =
        some { id := derivedId node.title, top := 100 * ((layout (nodes.take j)).2 + 1),
               left := 0, startingPoints := [] } ∧
      (layout (nodes.take (j + 1))).2 = (layout (nodes.take j)).2 + 1 := by
  constructor
  · rw [layout_getElem? nodes j node hnode, placeNode_starter _ _ _ hrel]
  · rw [layout_snd_take_succ nodes j node hnode, placeNode_starter _ _ _ hrel]

/-- Two starters are both at left 0, the later one strictly lower. -/
theorem starter_tops_lt (nodes : List Node) (i j : Nat) (a b : Node) (hij : i < j)
    (ha : nodes[i]? = some a) (hb : nodes[j]? = some b)
    (hra : a.relations = []) (hrb : b.relations = []) :
    ∃ p q, (layout nodes).1[i]? = some p ∧ (layout nodes).1[j]? = some q ∧
      p.left = 0 ∧ q.left = 0 ∧ p.top < q.top := by
  obtain ⟨hp, hsucc⟩ := starter_getElem? nodes i a ha hra
  obtain ⟨hq, _⟩ := starter_getElem? nodes j b hb hrb
  have hmono := layout_snd_take_mono nodes (i + 1) j hij
  refine ⟨_, _, hp, hq, rfl, rfl, ?_⟩
  show 100 * ((layout (nodes.take i)).2 + 1) < 100 * ((layout (nodes.take j)).2 + 1)
  omega

/-! ## Claims about starters and duplicate ids -/

/-- C12, as stated, fails on `[A [], B []]`: both nodes are starters and both are
placed at left 0. -/
theorem starters_share_left :
    layout [⟨"A", "core-technology", []⟩, ⟨"B", "core-technology", []⟩] =
      ([⟨"a", 100, 0, []⟩, ⟨"b", 200, 0, []⟩], 2) ∧
    ([⟨"A", "core-technology", []⟩, ⟨"B", "core-technology", []⟩] : List Node).map
      Node.relations = [[], []] := by
  decide

/-- C12, amended. Every starter is placed at left 0, and no two starters receive the
same top: of two starters, the later one in the sequence has the strictly larger top. -/
theorem starters_distinct_tops (nodes : List Node) (i j : Nat) (a b : Node) (hij : i < j)
    (ha : nodes[i]? = some a) (hb : nodes[j]? = some b)
    (hra : a.relations = []) (hrb : b.relations = []) :
    ∃ p q, (layout nodes).1[i]? = some p ∧ (layout nodes).1[j]? = some q ∧
      p.left = 0 ∧ q.left = 0 ∧ p.top < q.top ∧ p.top ≠ q.top := by
  obtain ⟨p, q, hp, hq, hpl, hql, hlt⟩ := starter_tops_lt nodes i j a b hij ha hb hra hrb
  exact ⟨p, q, hp, hq, hpl, hql, hlt, Nat.ne_of_lt hlt⟩

/-- Witness of the amended C12 on `[A [], B []]`. -/
theorem starters_distinct_tops_witness :
    ∃ p q, (layout [⟨"A", "core-technology", []⟩, ⟨"B", "core-technology", []⟩]).1[0]? =
        some p ∧
      (layout [⟨"A", "core-technology", []⟩, ⟨"B", "core-technology", []⟩]).1[1]? =
        some q ∧
      p.left = 0 ∧ q.left = 0 ∧ p.top < q.top ∧ p.top ≠ q.top :=
  starters_distinct_tops [⟨"A", "core-technology", []⟩, ⟨"B", "core-technology", []⟩] 0 1
    ⟨"A", "core-technology", []⟩ ⟨"B", "core-technology", []⟩
    (by decide) (by decide) (by decide) rfl rfl

/-- C13, as stated, fails on `[A [], Q [], a ["Q"], C ["A"]]`: the titles "A" (index 0,
placed at top 100, left 0) and "a" (index 2, placed at top 200, left 110) have the same
derived id "a", which is the id of the first relation of C; C is placed at top 200,
left 220, that is from the later node "a", where the earlier node A would give
left 110. -/
theorem first_match_counterexample :
    (layout [⟨"A", "core-technology", []⟩, ⟨"Q", "core-technology", []⟩,
        ⟨"a", "core-technology", ["Q"]⟩, ⟨"C", "core-technology", ["A"]⟩]).1.map
        (fun p => (p.id, p.top, p.left)) =
      [("a", 100, 0), ("q", 200, 0), ("a", 200, 110), ("c", 200, 220)] ∧
    derivedId "A" = "a" ∧
    (220 : Nat) ≠ 0 + 10 * utf16Length "a" + 100 ∧
    (220 : Nat) = 110 + 10 * utf16Length "a" + 100 := by
  decide

/-- C13, amended. When two earlier nodes, at indices `i1 < i2`, have the derived id of
the first relation of the node at index `j`, and no node between `i2` and `j` has it,
the node is aligned to the later of the two: its left is computed from the placement
`p2` of the node at `i2`, and its top is `p2.top` plus a natural multiple of 100. -/
theorem last_match_wins (nodes : List Node) (i1 i2 j : Nat) (a1 a2 node : Node)
    (first : String) (more : List String)
    (h12 : i1 < i2) (h2j : i2 < j)
    (ha1 : nodes[i1]? = some a1) (ha2 : nodes[i2]? = some a2)
    (hnode : nodes[j]? = some node) (hrel : node.relations = first :: more)
    (hid1 : derivedId first = derivedId a1.title)
    (hid2 : derivedId first = derivedId a2.title)
    (hlast : ∀ k m, i2 < k → k < j → nodes[k]? = some m →
      derivedId m.title ≠ derivedId first) :
    ∃ p1 p2 q, (layout nodes).1[i1]? = some p1 ∧ (layout nodes).1[i2]? = some p2 ∧
      (layout nodes).1[j]? = some q ∧ p1.id = p2.id ∧
      q.left = p2.left + 10 * utf16Length p2.id + 100 ∧
      ∃ c, q.top = p2.top + 100 * c := by
  obtain ⟨p2, q, hp2, hq, hpid, hleft, ⟨c, hc⟩, _⟩ :=
    aligned_to_last_match nodes i2 j a2 node first more h2j ha2 hnode hrel hid2 hlast
  have hlen : (layout nodes).1.length = nodes.length := layoutFrom_length [] 0 nodes
  have hi1 : i1 < (layout nodes).1.length := by
    have := (List.getElem?_eq_some_iff.mp ha2).1
    omega
  have hp1 : (layout nodes).1[i1]? = some ((layout nodes).1[i1]) :=
    List.getElem?_eq_getElem hi1
  refine ⟨_, p2, q, hp1, hp2, hq, ?_, ?_, c, ?_⟩
  · rw [layout_id_of_getElem? nodes i1 a1 _ ha1 hp1, hpid, ← hid1, hid2]
  · rw [hleft]; simp only [fontWidth, pixelDiff]; ring
  · rw [hc]; rfl

/-- Witness of the amended C13 on `[A [], Q [], a ["Q"], C ["A"]]`. -/
theorem last_match_wins_witness :
    ∃ p1 p2 q,
      (layout [⟨"A", "core-technology", []⟩, ⟨"Q", "core-technology", []⟩,
        ⟨"a", "core-technology", ["Q"]⟩, ⟨"C", "core-technology", ["A"]⟩]).1[0]? = some p1 ∧
      (layout [⟨"A", "core-technology", []⟩, ⟨"Q", "core-technology", []⟩,
        ⟨"a", "core-technology", ["Q"]⟩, ⟨"C", "core-technology", ["A"]⟩]).1[2]? = some p2 ∧
      (layout [⟨"A", "core-technology", []⟩, ⟨"Q", "core-technology", []⟩,
        ⟨"a", "core-technology", ["Q"]⟩, ⟨"C", "core-technology", ["A"]⟩]).1[3]? = some q ∧
      p1.id = p2.id ∧
      q.left = p2.left + 10 * utf16Length p2.id + 100 ∧
      ∃ c, q.top = p2.top + 100 * c :=
  last_match_wins
    [⟨"A", "core-technology", []⟩, ⟨"Q", "core-technology", []⟩,
      ⟨"a", "core-technology", ["Q"]⟩, ⟨"C", "core-technology", ["A"]⟩] 0 2 3
    ⟨"A", "core-technology", []⟩ ⟨"a", "core-technology", ["Q"]⟩
    ⟨"C", "core-technology", ["A"]⟩ "A" []
    (by decide) (by decide) (by decide) (by decide) (by decide) rfl (by decide) (by decide)
    (fun k _ h2 h3 => absurd h3 (by omega))

/-- What the pass gives the node at index `j`: left 0 exactly for a starter, left 100
or more otherwise, and a top of 100 or more. -/
theorem placed_bounds (nodes : List Node) (j : Nat) (node : Node) (q : Placed)
    (hnode : nodes[j]? = some node) (hq : (layout nodes).1[j]? = some q) :
    (q.left = 0 ↔ node.relations = []) ∧ (node.relations ≠ [] → 100 ≤ q.left) ∧
      100 ≤ q.top := by
  have htop : 100 ≤ q.top :=
    (layoutFrom_bounds [] 0 nodes (fun _ h => by simp at h)).2 q (List.getElem?_mem hq)
  have hqeq := layout_getElem? nodes j node hnode
  rw [hq] at hqeq
  have hqval := Option.some.inj hqeq
  have hleft : node.relations ≠ [] → 100 ≤ q.left := by
    intro hne
    rw [hqval]
    exact (placeNode_bounds _ _ node).2.1 hne
  refine ⟨⟨fun h0 => ?_, fun hnil => ?_⟩, hleft, htop⟩
  · by_contra hne
    have := hleft hne
    omega
  · rw [hqval, placeNode_starter _ _ _ hnil]

/-- C20. Starter invariant: the pass places every node; a node is at left 0 exactly
when it is a starter, a node with relations being at left 100 or more; every top is
100 or more; the tops of the starters are strictly increasing in sequence order; and
a starter never has the same (top, left) as a node at another index. -/
theorem starter_invariant (nodes : List Node) :
    (layout nodes).1.length = nodes.length ∧
      (∀ (j : Nat) (node : Node) (q : Placed), nodes[j]? = some node →
        (layout nodes).1[j]? = some q →
        (q.left = 0 ↔ node.relations = []) ∧ (node.relations ≠ [] → 100 ≤ q.left) ∧
          100 ≤ q.top) ∧
      (∀ (i j : Nat) (a b : Node) (p q : Placed), i < j → nodes[i]? = some a →
        nodes[j]? = some b → a.relations = [] → b.relations = [] →
        (layout nodes).1[i]? = some p → (layout nodes).1[j]? = some q → p.top < q.top) ∧
      (∀ (i k : Nat) (a : Node) (p q : Placed), i ≠ k → nodes[i]? = some a →
        a.relations = [] →
        (layout nodes).1[i]? = some p → (layout nodes).1[k]? = some q →
        (p.top, p.left) ≠ (q.top, q.left)) := by
  have hlen : (layout nodes).1.length = nodes.length := layoutFrom_length [] 0 nodes
  have hlt : ∀ (i j : Nat) (a b : Node) (p q : Placed), i < j → nodes[i]? = some a →
      nodes[j]? = some b →
      a.relations = [] → b.relations = [] →
      (layout nodes).1[i]? = some p → (layout nodes).1[j]? = some q → p.top < q.top := by
    intro i j a b p q hij ha hb hra hrb hp hq
    obtain ⟨p2, q2, hp2, hq2, _, _, h⟩ := starter_tops_lt nodes i j a b hij ha hb hra hrb
    rw [hp] at hp2
    rw [hq] at hq2
    rw [Option.some.inj hp2, Option.some.inj hq2]
    exact h
  refine ⟨hlen, fun j node q hnode hq => placed_bounds nodes j node q hnode hq, hlt, ?_⟩
  intro i k a p q hik ha hra hp hq heq
  have htop : p.top = q.top := congrArg Prod.fst heq
  have hleft : p.left = q.left := congrArg Prod.snd heq
  have hk : k < nodes.length := by
    have := (List.getElem?_eq_some_iff.mp hq).1
    omega
  have hb : nodes[k]? = some (nodes[k]) := List.getElem?_eq_getElem hk
  have hp0 : p.left = 0 := (placed_bounds nodes i a p ha hp).1.mpr hra
  by_cases hrb : (nodes[k]).relations = []
  · rcases Nat.lt_or_gt_of_ne hik with h | h
    · have := hlt i k a _ p q h ha hb hra hrb hp hq
      omega
    · have := hlt k i _ a q p h hb ha hrb hra hq hp
      omega
  · have := (placed_bounds nodes k _ q hb hq).2.1 hrb
    omega

/-! ## Prefix stability -/

/-- The node placed right after the nodes of `pre` is placed by one iteration that
reads the records and the `starterCount` of the render of `pre` alone. -/
theorem layout_append_cons_getElem? (pre : List Node) (node : Node) (post : List Node) :
    (layout (pre ++ node :: post)).1[pre.length]? =
      some (placeNode ((layout pre).1.map Placed.loc) (layout pre).2 node).1 := by
  have hlen : (layout pre).1.length = pre.length := layoutFrom_length [] 0 pre
  rw [layout_append_fst]
  simp only [layoutFrom]
  rw [List.getElem?_append_right (by omega), hlen]
  simp

/-- The position and the starting points computed by an iteration do not depend on
the title of the node, which only gives the id. -/
theorem placeNode_title_irrelevant (locRef : List Loc) (starterCount : Nat) (node : Node)
    (title : String) :
    (placeNode locRef starterCount { node with title := title }).1.top =
        (placeNode locRef starterCount node).1.top ∧
      (placeNode locRef starterCount { node with title := title }).1.left =
        (placeNode locRef starterCount node).1.left ∧
      (placeNode locRef starterCount { node with title := title }).1.startingPoints =
        (placeNode locRef starterCount node).1.startingPoints := by
  unfold placeNode
  cases node.relations <;> exact ⟨rfl, rfl, rfl⟩

/-- Every starting point computed by an iteration is an entry of the `locRef` it reads. -/
theorem placeNode_startingPoints_mem (locRef : List Loc) (starterCount : Nat) (node : Node)
    (sp : Loc) (hsp : sp ∈ (placeNode locRef starterCount node).1.startingPoints) :
    sp ∈ locRef := by
  unfold placeNode at hsp
  cases hrels : node.relations with
  | nil => rw [hrels] at hsp; simp at hsp
  | cons first more =>
    rw [hrels] at hsp
    simp only [scan_startingPoints, List.nil_append, List.mem_flatMap, List.mem_map] at hsp
    obtain ⟨n, hn, _, _, rfl⟩ := hsp
    exact hn

/-- C21. Prefix stability: the placements (id, position and starting points) that the
render of `S ++ T` gives to the first `|S|` nodes are those of the render of `S`, and the
pass goes on over `T` from the `locRef` and the `starterCount` that the render of `S`
ends with. So the node that follows `S` is placed the same whatever nodes come after
it and whatever its own title is, and each of its starting points is the record of a
node of `S`: a relation naming the node itself or a later node has no effect. -/
theorem prefix_stability (S T : List Node) :
    (layout (S ++ T)).1.take S.length = (layout S).1 ∧
      layout (S ++ T) =
        ((layout S).1 ++
            (layoutFrom ((layout S).1.map Placed.loc) (layout S).2 T).1,
          (layoutFrom ((layout S).1.map Placed.loc) (layout S).2 T).2) ∧
      ∀ (node : Node) (title : String) (T1 T2 : List Node),
        ∃ q q', (layout (S ++ node :: T1)).1[S.length]? = some q ∧
          (layout (S ++ { node with title := title } :: T2)).1[S.length]? = some q' ∧
          q'.top = q.top ∧ q'.left = q.left ∧ q'.startingPoints = q.startingPoints ∧
          ∀ sp ∈ q.startingPoints, sp ∈ (layout S).1.map Placed.loc := by
  have hlen : (layout S).1.length = S.length := layoutFrom_length [] 0 S
  refine ⟨?_, ?_, ?_⟩
  · rw [layout_append_fst]
    exact List.take_left' hlen
  · unfold layout
    rw [layoutFrom_append]
    simp
  · intro node title T1 T2
    obtain ⟨h1, h2, h3⟩ :=
      placeNode_title_irrelevant ((layout S).1.map Placed.loc) (layout S).2 node title
    exact ⟨_, _, layout_append_cons_getElem? S node T1,
      layout_append_cons_getElem? S { node with title := title } T2, h1, h2, h3,
      fun sp hsp => placeNode_startingPoints_mem _ _ _ sp hsp⟩

/-! ## The relations of a committed node -/

theorem splitCommaChars_ne_nil (cs : List Char) : splitCommaChars cs ≠ [] := by
  cases cs with
  | nil => simp [splitCommaChars]
  | cons c rest =>
    unfold splitCommaChars
    split_ifs
    · simp
    · split <;> simp

theorem commit_relations_ne_nil (relationsValue : String) :
    (splitComma relationsValue).map trim ≠ [] := by
  intro h
  rw [List.map_eq_nil_iff] at h
  unfold splitComma at h
  rw [List.map_eq_nil_iff] at h
  exact splitCommaChars_ne_nil _ h

/-- The commit handler stores its new node at some index of the sequence. -/
theorem commit_new_node_index (treeData : List Node) (node : Node)
    (inputValue selectValue relationsValue : String) :
    ∃ j : Nat, (commit treeData node inputValue selectValue relationsValue)[j]? =
      some ({ title := trim inputValue, type := normalizeType selectValue,
              relations := (splitComma relationsValue).map trim } : Node) := by
  simp only [commit, spliceInsert]
  refine ⟨(List.take (treeLocValue (commitTreeLoc node.title
    (treeData.map (renameRelations node.title inputValue)) 0 none))
    ((treeData.map (renameRelations node.title inputValue)).filter
      (fun n => n.title ≠ node.title))).length, ?_⟩
  rw [List.getElem?_append_right (le_refl _)]
  simp

/-- C22. The relations of the node built by the commit handler are the pieces of the
relations text between the commas, each trimmed; this list is never empty, and for the
empty text, which is the `relList` of a node without relations, it is `[""]`. The new
node is stored in the sequence and the next layout pass does not treat it as a
starter: it is placed by the scan, at left 100 or more. -/
theorem commit_relations_never_empty (treeData : List Node) (node : Node)
    (inputValue selectValue relationsValue : String) :
    (splitComma relationsValue).map trim ≠ [] ∧
      relList [] = "" ∧ (splitComma "").map trim = [""] ∧
      ∃ (j : Nat) (q : Placed),
        (commit treeData node inputValue selectValue relationsValue)[j]? =
          some ({ title := trim inputValue, type := normalizeType selectValue,
                  relations := (splitComma relationsValue).map trim } : Node) ∧
        (layout (commit treeData node inputValue selectValue relationsValue)).1[j]? =
          some q ∧
        100 ≤ q.left ∧ q.left ≠ 0 := by
  refine ⟨commit_relations_ne_nil relationsValue, by decide, by decide, ?_⟩
  obtain ⟨j, hj⟩ := commit_new_node_index treeData node inputValue selectValue relationsValue
  have hq := layout_getElem? _ j _ hj
  have hleft := (placeNode_bounds
    (((layout (commit treeData node inputValue selectValue relationsValue)).1.take j).map
      Placed.loc)
    (layout ((commit treeData node inputValue selectValue relationsValue).take j)).2
    { title := trim inputValue, type := normalizeType selectValue,
      relations := (splitComma relationsValue).map trim }).2.1
    (commit_relations_ne_nil relationsValue)
  exact ⟨j, _, hj, hq, hleft, by omega⟩

/-! ## Trimming and splitting the default relations text -/

theorem dropWhile_eq_self_of_head (cs : List Char)
    (h : cs.head?.all (fun c => !isWhiteSpace c) = true) :
    cs.dropWhile isWhiteSpace = cs := by
  cases cs with
  | nil => rfl
  | cons c rest =>
    have hc : isWhiteSpace c = false := by simpa using h
    simp [List.dropWhile, hc]

theorem trimChars_eq_self (cs : List Char)
    (hhead : cs.head?.all (fun c => !isWhiteSpace c) = true)
    (hlast : cs.getLast?.all (fun c => !isWhiteSpace c) = true) :
    trimChars cs = cs := by
  unfold trimChars
  rw [dropWhile_eq_self_of_head cs hhead,
    dropWhile_eq_self_of_head cs.reverse (by rw [List.head?_reverse]; exact hlast),
    List.reverse_reverse]

theorem trimChars_space_cons (cs : List Char)
    (hhead : cs.head?.all (fun c => !isWhiteSpace c) = true)
    (hlast : cs.getLast?.all (fun c => !isWhiteSpace c) = true) :
    trimChars (' ' :: cs) = cs := by
  have hsp : isWhiteSpace ' ' = true := by decide
  have h := trimChars_eq_self cs hhead hlast
  unfold trimChars at h ⊢
  rw [List.dropWhile_cons, if_pos hsp]
  exact h

theorem trim_eq_self (s : String) (h : noOuterWhiteSpace s = true) : trim s = s := by
  unfold noOuterWhiteSpace at h
  rw [Bool.and_eq_true] at h
  unfold trim
  rw [trimChars_eq_self s.data h.1 h.2]

theorem splitCommaChars_no_comma (cs : List Char) (h : ',' ∉ cs) :
    splitCommaChars cs = [cs] := by
  induction cs with
  | nil => rfl
  | cons c rest ih =>
    have hc : c ≠ ',' := fun hc => h (hc ▸ List.mem_cons_self _ _)
    have hrest : ',' ∉ rest := fun hr => h (List.mem_cons_of_mem _ hr)
    simp only [splitCommaChars, if_neg hc, ih hrest]

theorem splitCommaChars_cons_ne (c : Char) (cs piece : List Char)
    (pieces : List (List Char)) (hc : c ≠ ',')
    (h : splitCommaChars cs = piece :: pieces) :
    splitCommaChars (c :: cs) = (c :: piece) :: pieces := by
  simp only [splitCommaChars, if_neg hc, h]

theorem splitCommaChars_append_comma (cs tail : List Char) (h : ',' ∉ cs) :
    splitCommaChars (cs ++ ',' :: tail) = cs :: splitCommaChars tail := by
  induction cs with
  | nil => simp [splitCommaChars]
  | cons c rest ih =>
    have hc : c ≠ ',' := fun hc => h (hc ▸ List.mem_cons_self _ _)
    have hrest : ',' ∉ rest := fun hr => h (List.mem_cons_of_mem _ hr)
    exact splitCommaChars_cons_ne c _ _ _ hc (ih hrest)

/-- Splitting the text joined with ", " gives back the first piece, and each other
piece behind one space. -/
theorem splitCommaChars_join (piece : List Char) (rest : List (List Char))
    (h : ∀ p ∈ piece :: rest, ',' ∉ p) :
    splitCommaChars (joinCommaSpaceChars (piece :: rest)) =
      piece :: rest.map (fun p => ' ' :: p) := by
  induction rest generalizing piece with
  | nil => exact splitCommaChars_no_comma piece (h piece (List.mem_cons_self _ _))
  | cons next rest ih =>
    have hnext := ih next (fun p hp => h p (List.mem_cons_of_mem _ hp))
    show splitCommaChars (piece ++ ',' :: ' ' :: joinCommaSpaceChars (next :: rest)) = _
    rw [splitCommaChars_append_comma _ _ (h piece (List.mem_cons_self _ _)),
      splitCommaChars_cons_ne ' ' _ _ _ (by decide) hnext]
    rfl

/-- The commit handler reads back, from the default text of the relations input, the
relations it was made from. -/
theorem split_relList (relations : List String) (hne : relations ≠ [])
    (h : ∀ r ∈ relations, ',' ∉ r.data ∧ noOuterWhiteSpace r = true) :
    (splitComma (relList relations)).map trim = relations := by
  cases relations with
  | nil => exact absurd rfl hne
  | cons first rest =>
    have hcomma : ∀ p ∈ first.data :: rest.map String.data, ',' ∉ p := by
      intro p hp
      rcases List.mem_cons.mp hp with rfl | hp
      · exact (h first (List.mem_cons_self _ _)).1
      · obtain ⟨r, hr, rfl⟩ := List.mem_map.mp hp
        exact (h r (List.mem_cons_of_mem _ hr)).1
    unfold splitComma relList
    rw [List.map_cons, splitCommaChars_join _ _ hcomma]
    simp only [List.map_cons, List.map_map]
    congr 1
    · exact trim_eq_self first (h first (List.mem_cons_self _ _)).2
    · have hall : ∀ r ∈ rest, (trim ∘ String.mk ∘ (fun p => ' ' :: p) ∘ String.data) r = r := by
        intro r hr
        have hr2 := (h r (List.mem_cons_of_mem _ hr)).2
        unfold noOuterWhiteSpace at hr2
        rw [Bool.and_eq_true] at hr2
        show (⟨trimChars (' ' :: r.data)⟩ : String) = r
        rw [trimChars_space_cons r.data hr2.1 hr2.2]
      conv_rhs => rw [← List.map_id rest]
      exact List.map_congr_left hall

/-! ## Commit without a change -/

theorem set_eq_self_of_getElem? (nodes : List Node) (i : Nat) (x : Node)
    (hx : nodes[i]? = some x) : nodes.set i x = nodes := by
  induction nodes generalizing i with
  | nil => rfl
  | cons a rest ih =>
    cases i with
    | zero =>
      have : a = x := by simpa using hx
      rw [List.set_cons_zero, this]
    | succ k =>
      have hk : rest[k]? = some x := by simpa using hx
      rw [List.set_cons_succ, ih k hk]

theorem renameRelations_self (title : String) (n : Node) :
    renameRelations title title n = n := by
  have h : n.relations.map (fun r => if r = title then title else r) = n.relations := by
    conv_rhs => rw [← List.map_id n.relations]
    apply List.map_congr_left
    intro r _
    by_cases hr : r = title
    · rw [if_pos hr, hr]; rfl
    · rw [if_neg hr]; rfl
  unfold renameRelations
  rw [h]

/-- C23. Unchanged commit: in a sequence with pairwise distinct titles, committing a
node with the default values of its three inputs (its title, its type and its relations
joined with ", ") returns the sequence as it was, when the title has no leading or
trailing white space, the type is one of the three values of the select, and the
relations are a non-empty list of strings without comma and without leading or
trailing white space. -/
theorem unchanged_commit_identity (nodes : List Node) (i : Nat) (x : Node) (ty : NodeType)
    (hnodup : (nodes.map Node.title).Nodup) (hx : nodes[i]? = some x)
    (htitle : noOuterWhiteSpace x.title = true) (htype : x.type = ty.value)
    (hne : x.relations ≠ [])
    (hrels : ∀ r ∈ x.relations, ',' ∉ r.data ∧ noOuterWhiteSpace r = true) :
    commit nodes x x.title x.type (relList x.relations) = nodes := by
  rw [commit_eq_set nodes i x x.title x.type (relList x.relations) hnodup hx,
    split_relList x.relations hne hrels, trim_eq_self x.title htitle, htype,
    normalizeType_value, ← htype]
  have hmap : nodes.map (renameRelations x.title x.title) = nodes := by
    conv_rhs => rw [← List.map_id nodes]
    exact List.map_congr_left (fun n _ => renameRelations_self x.title n)
  rw [hmap]
  exact set_eq_self_of_getElem? nodes i x hx

/-- Witness of C23: committing B, unchanged, in `[A [], B ["A", "x y"]]`. -/
theorem unchanged_commit_identity_witness :
    commit [⟨"A", "core-technology", []⟩, ⟨"B", "longevity-tech", ["A", "x y"]⟩]
        ⟨"B", "longevity-tech", ["A", "x y"]⟩
        (⟨"B", "longevity-tech", ["A", "x y"]⟩ : Node).title
        (⟨"B", "longevity-tech", ["A", "x y"]⟩ : Node).type
        (relList (⟨"B", "longevity-tech", ["A", "x y"]⟩ : Node).relations) =
      [⟨"A", "core-technology", []⟩, ⟨"B", "longevity-tech", ["A", "x y"]⟩] :=
  unchanged_commit_identity
    [⟨"A", "core-technology", []⟩, ⟨"B", "longevity-tech", ["A", "x y"]⟩] 1
    ⟨"B", "longevity-tech", ["A", "x y"]⟩ NodeType.longevityTech
    (by decide) (by decide) (by decide) (by decide) (by decide) (by decide)

/-! ## Repeated create on a sequence without default titles -/

theorem defaultNodes_length (relation : String) (start count : Nat) :
    (defaultNodes relation start count).length = count := by
  induction count generalizing start with
  | zero => rfl
  | succ c ih => simp [defaultNodes, ih]

theorem defaultNodes_getElem? (relation : String) (start count j : Nat) (hj : j < count) :
    (defaultNodes relation start count)[j]? =
      some { title := "Node " ++ toString (start + j + 1), type := "core-technology",
             relations := [relation] } := by
  induction count generalizing start j with
  | zero => omega
  | succ c ih =>
    cases j with
    | zero => simp only [defaultNodes, List.getElem?_cons_zero, Nat.add_zero]
    | succ j =>
      simp only [defaultNodes, List.getElem?_cons_succ]
      rw [ih (start + 1) j (by omega)]
      have : start + 1 + j + 1 = start + (j + 1) + 1 := by omega
      rw [this]

theorem defaultNodes_succ (relation : String) (start count : Nat) :
    defaultNodes relation start (count + 1) =
      defaultNodes relation start count ++
        [{ title := "Node " ++ toString (start + count + 1), type := "core-technology",
           relations := [relation] }] := by
  induction count generalizing start with
  | zero => rfl
  | succ c ih =>
    have h := ih (start + 1)
    have hidx : start + 1 + c + 1 = start + (c + 1) + 1 := by omega
    rw [hidx] at h
    show _ :: defaultNodes relation (start + 1) (c + 1) = _ :: (_ ++ _)
    rw [h]

theorem createTreeLoc_cons_default (title : String) (a : Node) (rest : List Node)
    (i t : Nat) (hne : a.title ≠ title) (hdef : a.title = defaultTitle (some t)) :
    createTreeLoc title (a :: rest) i (some t) =
      createTreeLoc title rest (i + 1) (some (t + 1)) := by
  simp only [createTreeLoc, if_neg hne, if_pos hdef]
  rfl

/-- The scan of the create handler walks through a run of default nodes numbered
from its candidate on, incrementing `treeLoc` at each. -/
theorem createTreeLoc_defaultNodes (title relation : String) (count t index : Nat)
    (rest : List Node) (htitle : ∀ j : Nat, title ≠ "Node " ++ toString j) :
    createTreeLoc title (defaultNodes relation t count ++ rest) index (some t) =
      createTreeLoc title rest (index + count) (some (t + count)) := by
  induction count generalizing t index with
  | zero => rfl
  | succ c ih =>
    have h1 : index + 1 + c = index + (c + 1) := by omega
    have h2 : t + 1 + c = t + (c + 1) := by omega
    show createTreeLoc title (_ :: (defaultNodes relation (t + 1) c ++ rest)) index (some t) = _
    rw [createTreeLoc_cons_default title _ _ index t (fun h => htitle (t + 1) h.symm) rfl,
      ih (t + 1) (index + 1), h1, h2]

theorem titles_after_ne (nodes : List Node) (i : Nat) (x : Node)
    (hnodup : (nodes.map Node.title).Nodup) (hx : nodes[i]? = some x) :
    nodes.take (i + 1) = nodes.take i ++ [x] ∧
      ∀ n ∈ nodes.drop (i + 1), n.title ≠ x.title := by
  obtain ⟨hi, hget⟩ := List.getElem?_eq_some_iff.mp hx
  have hsplit : nodes = nodes.take i ++ x :: nodes.drop (i + 1) := by
    rw [← hget, List.getElem_cons_drop _ _ hi, List.take_append_drop]
  refine ⟨by rw [List.take_succ, hx]; rfl, ?_⟩
  intro n hn heq
  rw [hsplit, List.map_append, List.map_cons] at hnodup
  have h2 := (List.nodup_append.mp hnodup).2.1
  rw [List.nodup_cons] at h2
  exact h2.1 (heq ▸ List.mem_map_of_mem Node.title hn)

/-- After `count` clicks the scan of the create handler ends at `treeLoc = i + count`. -/
theorem createTreeLoc_after_creates (nodes : List Node) (i : Nat) (x : Node) (count : Nat)
    (hnodup : (nodes.map Node.title).Nodup) (hx : nodes[i]? = some x)
    (hform : ∀ m ∈ nodes, ∀ j : Nat, m.title ≠ "Node " ++ toString j) :
    createTreeLoc x.title
        (nodes.take (i + 1) ++ defaultNodes x.title i count ++ nodes.drop (i + 1)) 0 none =
      some (i + count) := by
  obtain ⟨htake, hafter⟩ := titles_after_ne nodes i x hnodup hx
  have hxform := hform x (List.getElem?_mem hx)
  have hlen : (nodes.take i).length = i := by
    have := (List.getElem?_eq_some_iff.mp hx).1
    rw [List.length_take]; omega
  obtain ⟨u, hu, _, _, hiff⟩ := createTreeLoc_scan x.title (nodes.drop (i + 1))
    (i + 1 + count) (i + count) hafter
  have hueq : u = i + count := by
    rw [hiff]
    intro n hn
    have hmem : n ∈ nodes := List.mem_of_mem_drop hn
    exact hform n hmem (i + count + 1)
  rw [htake, List.append_assoc, List.append_assoc, createTreeLoc_append]
  rw [List.singleton_append, createTreeLoc_cons_match _ _ _ _ _ rfl, hlen, Nat.zero_add,
    createTreeLoc_defaultNodes _ _ _ _ _ _ hxform, hu, hueq]

/-- One more click after `count` clicks: the node "Node (i + count + 1)" is made and
stored right after the nodes made before. -/
theorem create_after_creates (nodes : List Node) (i : Nat) (x : Node) (count : Nat)
    (hnodup : (nodes.map Node.title).Nodup) (hx : nodes[i]? = some x)
    (hform : ∀ m ∈ nodes, ∀ j : Nat, m.title ≠ "Node " ++ toString j) :
    createdNode
        (nodes.take (i + 1) ++ defaultNodes x.title i count ++ nodes.drop (i + 1)) x =
        { title := "Node " ++ toString (i + count + 1), type := "core-technology",
          relations := [x.title] } ∧
      (create
        (nodes.take (i + 1) ++ defaultNodes x.title i count ++ nodes.drop (i + 1)) x).1 =
        nodes.take (i + 1) ++ defaultNodes x.title i (count + 1) ++ nodes.drop (i + 1) := by
  have hloc := createTreeLoc_after_creates nodes i x count hnodup hx hform
  have hnew : createdNode
      (nodes.take (i + 1) ++ defaultNodes x.title i count ++ nodes.drop (i + 1)) x =
      { title := "Node " ++ toString (i + count + 1), type := "core-technology",
        relations := [x.title] } := by
    simp only [createdNode, hloc, defaultTitle, treeLocValue, Option.getD_some]
  refine ⟨hnew, ?_⟩
  have hlen : (nodes.take (i + 1) ++ defaultNodes x.title i count).length =
      i + count + 1 := by
    have := (List.getElem?_eq_some_iff.mp hx).1
    rw [List.length_append, List.length_take, defaultNodes_length]
    omega
  rw [create_fst_eq, hnew, hloc]
  simp only [treeLocValue, Option.getD_some]
  rw [List.take_left' hlen, List.drop_left' hlen, defaultNodes_succ]
  simp only [List.append_assoc, List.singleton_append]

theorem createTimes_from (nodes : List Node) (i : Nat) (x : Node) (n count : Nat)
    (hnodup : (nodes.map Node.title).Nodup) (hx : nodes[i]? = some x)
    (hform : ∀ m ∈ nodes, ∀ j : Nat, m.title ≠ "Node " ++ toString j) :
    createTimes x n
        (nodes.take (i + 1) ++ defaultNodes x.title i count ++ nodes.drop (i + 1)) =
        nodes.take (i + 1) ++ defaultNodes x.title i (count + n) ++ nodes.drop (i + 1) ∧
      createdTitles x n
        (nodes.take (i + 1) ++ defaultNodes x.title i count ++ nodes.drop (i + 1)) =
        (defaultNodes x.title (i + count) n).map Node.title := by
  induction n generalizing count with
  | zero => exact ⟨rfl, rfl⟩
  | succ n ih =>
    obtain ⟨hnew, hcreate⟩ := create_after_creates nodes i x count hnodup hx hform
    obtain ⟨ih1, ih2⟩ := ih (count + 1)
    have h1 : count + 1 + n = count + (n + 1) := by omega
    have h2 : i + (count + 1) = i + count + 1 := by omega
    constructor
    · show createTimes x n (create _ x).1 = _
      rw [hcreate, ih1, h1]
    · show (createdNode _ x).title :: createdTitles x n (create _ x).1 = _
      rw [hcreate, ih2, hnew, h2]
      rfl

/-- A title shorter than "Node " is not of the form "Node j". -/
theorem short_title_ne_default (title : String) (j : Nat) (h : title.length < 5) :
    title ≠ "Node " ++ toString j := by
  intro heq
  have hlen : ("Node " ++ toString j).length = 5 + (toString j).length := by
    rw [String.length_append]; rfl
  rw [heq, hlen] at h
  omega

/-- C24. Default titles come from the index: in a sequence with pairwise distinct
titles, none of the form "Node j", `n` clicks in a row on the create icon of the node at
index `i` generate, at the `k`-th click (`1 ≤ k ≤ n`), the title "Node (i + k)", and the
node made by that click is at index `i + k` of the sequence it stores; after the `n`
clicks the new nodes stand in a row right after the clicked node. -/
theorem default_titles_from_index (nodes : List Node) (i : Nat) (x : Node) (n k : Nat)
    (hnodup : (nodes.map Node.title).Nodup) (hx : nodes[i]? = some x)
    (hform : ∀ m ∈ nodes, ∀ j : Nat, m.title ≠ "Node " ++ toString j)
    (hk1 : 1 ≤ k) (hkn : k ≤ n) :
    (createdTitles x n nodes)[k - 1]? = some ("Node " ++ toString (i + k)) ∧
      (createTimes x k nodes)[i + k]? =
        some { title := "Node " ++ toString (i + k), type := "core-technology",
               relations := [x.title] } ∧
      createTimes x n nodes =
        nodes.take (i + 1) ++ defaultNodes x.title i n ++ nodes.drop (i + 1) := by
  have hi : i < nodes.length := (List.getElem?_eq_some_iff.mp hx).1
  have hstart : nodes.take (i + 1) ++ defaultNodes x.title i 0 ++ nodes.drop (i + 1) =
      nodes := by
    simp [defaultNodes]
  have hn := createTimes_from nodes i x n 0 hnodup hx hform
  have hk := createTimes_from nodes i x k 0 hnodup hx hform
  simp only [hstart, Nat.zero_add, Nat.add_zero] at hn hk
  have hidx : i + (k - 1) + 1 = i + k := by omega
  refine ⟨?_, ?_, hn.1⟩
  · rw [hn.2, List.getElem?_map, defaultNodes_getElem? _ _ _ _ (by omega), hidx]
    rfl
  · have hlen : (nodes.take (i + 1)).length = i + 1 := by
      rw [List.length_take]; omega
    rw [hk.1, List.append_assoc, List.getElem?_append_right (by omega), hlen]
    have hsub : i + k - (i + 1) = k - 1 := by omega
    rw [hsub, List.getElem?_append_left (by rw [defaultNodes_length]; omega),
      defaultNodes_getElem? _ _ _ _ (by omega), hidx]

/-- Witness of C24: three clicks on B (index 1) in `[A, B, C]`, second click. -/
theorem default_titles_from_index_witness :
    (createdTitles ⟨"B", "core-technology", []⟩ 3
        [⟨"A", "core-technology", []⟩, ⟨"B", "core-technology", []⟩,
          ⟨"C", "core-technology", []⟩])[2 - 1]? = some ("Node " ++ toString (1 + 2)) ∧
      (createTimes ⟨"B", "core-technology", []⟩ 2
        [⟨"A", "core-technology", []⟩, ⟨"B", "core-technology", []⟩,
          ⟨"C", "core-technology", []⟩])[1 + 2]? =
        some { title := "Node " ++ toString (1 + 2), type := "core-technology",
               relations := [(⟨"B", "core-technology", []⟩ : Node).title] } ∧
      createTimes ⟨"B", "core-technology", []⟩ 3
        [⟨"A", "core-technology", []⟩, ⟨"B", "core-technology", []⟩,
          ⟨"C", "core-technology", []⟩] =
        List.take (1 + 1) [⟨"A", "core-technology", []⟩, ⟨"B", "core-technology", []⟩,
          ⟨"C", "core-technology", []⟩] ++
          defaultNodes (⟨"B", "core-technology", []⟩ : Node).title 1 3 ++
          List.drop (1 + 1) [⟨"A", "core-technology", []⟩, ⟨"B", "core-technology", []⟩,
            ⟨"C", "core-technology", []⟩] :=
  default_titles_from_index
    [⟨"A", "core-technology", []⟩, ⟨"B", "core-technology", []⟩,
      ⟨"C", "core-technology", []⟩] 1 ⟨"B", "core-technology", []⟩ 3 2
    (by decide) (by decide)
    (fun m hm j =>
      short_title_ne_default m.title j
        ((by decide : ∀ a ∈ ([⟨"A", "core-technology", []⟩, ⟨"B", "core-technology", []⟩,
            ⟨"C", "core-technology", []⟩] : List Node), a.title.length < 5) m hm))
    (by decide) (by decide)

end TechTree
